import Mathlib

/-!
Shallow embedding of the `type-router` client-side routing library
(`type-router.ts`, query-parameter revision) and proofs of its spec claims.

Strings are modelled as lists of characters (`Str`).  JavaScript string
operations used by the source (`split`, `includes`, `replace` with the two
parameter regexes, `URLSearchParams`, `encodeURIComponent`,
`decodeURIComponent`) are given explicit executable definitions below.
-/

namespace TypeRouter

/-- Character-list model of a JavaScript string. -/
abbrev Str := List Char

/-- Coercion from a Lean string literal to the model. -/
def str (s : String) : Str := s.data

/-- Model of JavaScript `s.split(sep)` for a single-character separator:
splitting a string on `n` separator occurrences yields `n + 1` chunks, and
the empty string yields one empty chunk. -/
def splitOnC (sep : Char) : Str → List Str
  | [] => [[]]
  | c :: rest =>
    if c = sep then [] :: splitOnC sep rest
    else
      match splitOnC sep rest with
      | [] => [[c]]
      | h :: t => (c :: h) :: t

/-- Joining chunks back with the separator (inverse of `splitOnC`). -/
def intercalateC (sep : Char) : List Str → Str
  | [] => []
  | [x] => x
  | x :: y :: t => x ++ sep :: intercalateC sep (y :: t)

/-- Model of JavaScript `s.includes(c)` for a single character. -/
def hasChar (c : Char) : Str → Bool
  | [] => false
  | a :: rest => a = c || hasChar c rest

/-- Model of `path.includes('//')`: two consecutive separator characters
anywhere in the string. -/
def hasDoubleSlash : Str → Bool
  | [] => false
  | [_] => false
  | a :: b :: rest => (a = '/' && b = '/') || hasDoubleSlash (b :: rest)

/-- Source `isValidPath`: a path is valid iff it has no empty segment,
i.e. no two consecutive slashes. -/
def isValidPath (path : Str) : Bool := !hasDoubleSlash path

/-- First character is a slash (used to reason about `hasDoubleSlash`
across chunk joins). -/
def headIsSlash : Str → Bool
  | c :: _ => c = '/'
  | [] => false

/-- Source `cleanPathPart` (also `path.split('?')[0]`): the part of the
string before the first `?`. -/
def cleanPathPart (path : Str) : Str :=
  match splitOnC '?' path with
  | [] => []
  | h :: _ => h

/-- The part of the string after the first `?`, as produced by JavaScript
`path.split('?', 2)[1]` / `path.split('?')[1]`: `none` when there is no
`?` at all. -/
def querySuffix (path : Str) : Option Str :=
  match splitOnC '?' path with
  | _ :: q :: _ => some q
  | _ => none

/-- The query string when it is truthy in JavaScript: `none` when absent or
empty (the source guards query handling with `if (queryString)`). -/
def queryStringOf (path : Str) : Option Str :=
  match querySuffix path with
  | some q => if q = [] then none else some q
  | none => none

/-- Source `getQueryParamKeys`: the declared query-parameter names of a
route pattern, i.e. the nonempty `&`-separated pieces after the first `?`. -/
def getQueryParamKeys (path : Str) : List Str :=
  match querySuffix path with
  | none => []
  | some q => (splitOnC '&' q).filter (fun piece => piece ≠ [])

/-! ## Percent encoding and decoding

Model of the host primitives `encodeURIComponent` (`enc` in the source) and
`decodeURIComponent` (`dec` in the source).  `encodeURIComponent` leaves the
unreserved characters (ASCII alphanumerics and `- _ . ! ~ * ' ( )`) intact
and replaces every other character by the percent-encoded bytes of its UTF-8
encoding, with uppercase hexadecimal digits.  `decodeURIComponent` decodes
maximal well-formed percent-encoded UTF-8 byte sequences back to characters;
on a malformed escape sequence the JavaScript host raises `URIError`, which
this total model instead leaves intact (no claim exercises malformed
escapes: every decode performed in the claims is of well-formed input). -/

/-- Characters that `encodeURIComponent` leaves unescaped (the apostrophe is
tested by its code point 39). -/
def isUnreservedEnc (c : Char) : Bool :=
  c.isAlphanum || c = '-' || c = '_' || c = '.' || c = '!' || c = '~' ||
    c = '*' || c.toNat = 39 || c = '(' || c = ')'

/-- Uppercase hexadecimal digit for a value below 16. -/
def hexDigit (n : Nat) : Char :=
  if n < 10 then Char.ofNat ('0'.toNat + n) else Char.ofNat ('A'.toNat + n - 10)

/-- Value of a hexadecimal digit character (either case), if it is one. -/
def hexVal? (c : Char) : Option Nat :=
  if '0' ≤ c ∧ c ≤ '9' then some (c.toNat - '0'.toNat)
  else if 'a' ≤ c ∧ c ≤ 'f' then some (c.toNat - 'a'.toNat + 10)
  else if 'A' ≤ c ∧ c ≤ 'F' then some (c.toNat - 'A'.toNat + 10)
  else none

/-- UTF-8 bytes of a Unicode scalar value. -/
def utf8Bytes (n : Nat) : List Nat :=
  if n < 0x80 then [n]
  else if n < 0x800 then [0xC0 + n / 64, 0x80 + n % 64]
  else if n < 0x10000 then
    [0xE0 + n / 4096, 0x80 + n / 64 % 64, 0x80 + n % 64]
  else
    [0xF0 + n / 262144, 0x80 + n / 4096 % 64, 0x80 + n / 64 % 64,
      0x80 + n % 64]

/-- Percent-encoded form of a byte list. -/
def pctOfBytes : List Nat → Str
  | [] => []
  | b :: rest => '%' :: hexDigit (b / 16) :: hexDigit (b % 16) :: pctOfBytes rest

/-- Encoding of one character under `encodeURIComponent`. -/
def encChar (c : Char) : Str :=
  if isUnreservedEnc c then [c] else pctOfBytes (utf8Bytes c.toNat)

/-- Model of `encodeURIComponent` (bound to `enc` in the source). -/
def enc : Str → Str
  | [] => []
  | c :: rest => encChar c ++ enc rest

/-- Lexical token of percent-decoding: either a plain character or a decoded
byte together with the two hexadecimal digit characters it came from (kept
so that malformed sequences can be re-emitted verbatim). -/
inductive PctTok where
  | chr (c : Char)
  | byte (b : Nat) (h1 h2 : Char)
deriving DecidableEq

/-- Byte tokens of a byte list as the tokenizer produces them from its
percent-encoded form (used to state the encode/decode round trip). -/
def byteToks (bs : List Nat) : List PctTok :=
  bs.map (fun b => .byte b (hexDigit (b / 16)) (hexDigit (b % 16)))

/-- Tokens of one encoded character (used to state the encode/decode round
trip). -/
def encToks (c : Char) : List PctTok :=
  if isUnreservedEnc c then [.chr c] else byteToks (utf8Bytes c.toNat)

/-- Verbatim characters of a token (used to re-emit malformed input). -/
def tokChars : PctTok → Str
  | .chr c => [c]
  | .byte _ h1 h2 => ['%', h1, h2]

/-- Tokenizer of percent-decoding: each `%` followed by two hexadecimal
digits becomes a byte token, everything else stays a character token
(a `%` not followed by two hexadecimal digits stays plain, together with
the characters after it). -/
def pctTokens : Str → List PctTok
  | [] => []
  | c :: rest =>
    if c = '%' then
      match rest with
      | h1 :: h2 :: rest' =>
        match hexVal? h1, hexVal? h2 with
        | some a, some b => .byte (a * 16 + b) h1 h2 :: pctTokens rest'
        | _, _ => .chr '%' :: .chr h1 :: .chr h2 :: pctTokens rest'
      | [h1] => [.chr '%', .chr h1]
      | [] => [.chr '%']
    else .chr c :: pctTokens rest

/-- Continuation-byte payload of a byte token, if it is one. -/
def contByte? : PctTok → Option Nat
  | .byte b _ _ => if 0x80 ≤ b ∧ b ≤ 0xBF then some (b - 0x80) else none
  | _ => none

/-- State of the UTF-8 reassembly scan: either between sequences, or
inside one, expecting `k` more continuation bytes of a `len`-byte sequence
with partial scalar `acc`, keeping the raw characters seen so far for
verbatim re-emission on malformed input. -/
inductive U8St where
  | clean
  | need (k len acc : Nat) (raw : Str)

/-- Reassembly step on a token in the between-sequences state. -/
def u8StepClean (t : PctTok) : Str × U8St :=
  match t with
  | .chr c => ([c], .clean)
  | .byte b h1 h2 =>
    if b < 0x80 then ([Char.ofNat b], .clean)
    else if 0xC2 ≤ b ∧ b ≤ 0xDF then ([], .need 1 2 (b - 0xC0) ['%', h1, h2])
    else if 0xE0 ≤ b ∧ b ≤ 0xEF then ([], .need 2 3 (b - 0xE0) ['%', h1, h2])
    else if 0xF0 ≤ b ∧ b ≤ 0xF4 then ([], .need 3 4 (b - 0xF0) ['%', h1, h2])
    else (['%', h1, h2], .clean)

/-- Completion check of a decoded scalar: a 2-byte sequence with a valid
lead is always in range; a 3-byte one must not be overlong or a surrogate;
a 4-byte one must lie in the supplementary planes. -/
def u8Valid (len n : Nat) : Bool :=
  if len = 2 then true
  else if len = 3 then 0x800 ≤ n && !(0xD800 ≤ n && n ≤ 0xDFFF)
  else 0x10000 ≤ n && n < 0x110000

/-- Reassembly step on one token. -/
def u8Step (st : U8St) (t : PctTok) : Str × U8St :=
  match st with
  | .clean => u8StepClean t
  | .need k len acc raw =>
    match contByte? t with
    | some c1 =>
      if k = 1 then
        let n := acc * 64 + c1
        if u8Valid len n then ([Char.ofNat n], .clean)
        else (raw ++ tokChars t, .clean)
      else ([], .need (k - 1) len (acc * 64 + c1) (raw ++ tokChars t))
    | none =>
      let p := u8StepClean t
      (raw ++ p.1, p.2)

/-- Characters flushed when the token stream ends. -/
def u8Finish : U8St → Str
  | .clean => []
  | .need _ _ _ raw => raw

/-- Reassembly of UTF-8 byte tokens into characters.  Well-formed
sequences (exactly the ones `enc` produces) decode to the original
character; malformed input is re-emitted verbatim. -/
def utf8Assemble (st : U8St) : List PctTok → Str
  | [] => u8Finish st
  | t :: rest =>
    let p := u8Step st t
    p.1 ++ utf8Assemble p.2 rest

/-- Model of `decodeURIComponent` (bound to `dec` in the source). -/
def dec (s : Str) : Str := utf8Assemble .clean (pctTokens s)

/-! ## Parameter objects

A JavaScript plain object with string keys and string values is modelled as
an association list in insertion order; assignment updates an existing key
in place and appends a fresh one, so keys stay unique exactly as in a
JavaScript object. -/

/-- Association-list model of a string-keyed, string-valued object. -/
abbrev Obj := List (Str × Str)

/-- Model of property read `o[k]` (as an `Option`, `none` for `undefined`). -/
def objGet (o : Obj) (k : Str) : Option Str :=
  (o.find? (fun p => p.1 = k)).map (fun p => p.2)

/-- Model of `k in o`. -/
def objHas (o : Obj) (k : Str) : Bool :=
  (o.find? (fun p => p.1 = k)).isSome

/-- Model of assignment `o[k] = v`. -/
def objSet (o : Obj) (k v : Str) : Obj :=
  if objHas o k then o.map (fun p => if p.1 = k then (k, v) else p)
  else o ++ [(k, v)]

/-- Source `shallowEqual`: key-set-and-value equality of two objects,
independent of insertion order. -/
def shallowEqual (o1 o2 : Obj) : Bool :=
  o1.length = o2.length &&
    o1.all (fun p =>
      match objGet o2 p.1 with
      | some v => v = p.2
      | none => false)

/-! ## URLSearchParams

Model of the host `URLSearchParams` as used by the source: the query string
is split on `&`, empty pieces are dropped, each piece is split at its first
`=` (a piece without `=` maps to the empty string), names and values are
decoded with `application/x-www-form-urlencoded` decoding (`+` becomes a
space, then percent-decoding), and `get` returns the first value bound to a
name, or `null` when absent. -/

/-- Split a query piece at its first `=`. -/
def splitFirstEq : Str → Str × Option Str
  | [] => ([], none)
  | c :: rest =>
    if c = '=' then ([], some rest)
    else
      let p := splitFirstEq rest
      (c :: p.1, p.2)

/-- Form decoding: `+` to space, then percent-decoding. -/
def formDecode (s : Str) : Str :=
  dec (s.map (fun c => if c = '+' then ' ' else c))

/-- Name-value pairs of a query string, in order. -/
def searchParamsList (qs : Str) : List (Str × Str) :=
  ((splitOnC '&' qs).filter (fun piece => piece ≠ [])).map (fun piece =>
    let p := splitFirstEq piece
    (formDecode p.1, formDecode (p.2.getD [])))

/-- Model of `new URLSearchParams(qs).get(name)`. -/
def searchParamsGet (qs name : Str) : Option Str :=
  ((searchParamsList qs).find? (fun p => p.1 = name)).map (fun p => p.2)

/-! ## Pattern compilation and matching

Source `buildRouteMatchers` compiles each registered pattern into the
regular expression built from the pattern text with each `:`-token
(`:[^/]+`) replaced by a capture group `([^/]+)`, anchored and with an
optional trailing slash.  For a pattern whose `/`-separated chunks are
each either a parameter chunk (`:` followed by at least one character) or a
literal chunk free of regex metacharacters, that regular expression accepts
exactly the strings obtained from the pattern by replacing every parameter
chunk by some nonempty slash-free chunk and keeping every literal chunk
byte-for-byte, optionally followed by one extra `/` — which is what the
chunkwise matcher below computes.  `wfPattern` states this well-formedness
and is assumed wherever a claim quantifies over patterns. -/

/-- Chunk shape that the compiled regex treats as a capture group: a `:`
followed by at least one character. -/
def isParamChunk : Str → Bool
  | c :: rest => c = ':' && !rest.isEmpty
  | [] => false

/-- One chunk of the compiled pattern against one chunk of the concrete
path: a parameter chunk takes any nonempty chunk, a literal chunk must
match exactly. -/
def chunkMatches (p c : Str) : Bool :=
  if isParamChunk p then !c.isEmpty else c = p

/-- Anchored chunkwise match (the regex without its optional trailing
slash): same number of chunks, all matching. -/
def coreMatch : List Str → List Str → Bool
  | [], [] => true
  | p :: ps, c :: cs => chunkMatches p c && coreMatch ps cs
  | _, _ => false

/-- Chunks of the compiled pattern: the path part of the route pattern
split on `/` (the query declaration is stripped first, as in
`buildRouteMatchers`). -/
def patternChunks (routePath : Str) : List Str :=
  splitOnC '/' (cleanPathPart routePath)

/-- True iff the string ends with a slash. -/
def endsWithSlash (s : Str) : Bool :=
  match s.getLast? with
  | some c => c = '/'
  | none => false

/-- Compiled-pattern match of a concrete clean path: the anchored chunkwise
match, tolerating one optional trailing slash (the regex suffix sequence
slash question-mark). -/
def patternMatch (routePath clean : Str) : Bool :=
  coreMatch (patternChunks routePath) (splitOnC '/' clean) ||
    (endsWithSlash clean &&
      coreMatch (patternChunks routePath) (splitOnC '/' clean.dropLast))

/-- Chunks of the concrete path that the capture groups see: the full chunk
list when the anchored match succeeds directly, otherwise the chunk list
with the trailing slash stripped. -/
def matchedChunks (routePath clean : Str) : List Str :=
  if coreMatch (patternChunks routePath) (splitOnC '/' clean) then
    splitOnC '/' clean
  else splitOnC '/' clean.dropLast

/-- Path-parameter names of a pattern, in order: the source extracts them
with the regex `:` followed by word characters, global, over the path part;
for well-formed patterns these are the parameter chunks' names. -/
def pathParamKeys (routePath : Str) : List Str :=
  (patternChunks routePath).filterMap (fun ch =>
    if isParamChunk ch then some ch.tail else none)

/-- Positional (name, percent-decoded value) pairs extracted from a matched
clean path, mirroring `paramKeys.forEach` with the capture groups. -/
def paramPairs (routePath clean : Str) : List (Str × Str) :=
  ((patternChunks routePath).zip (matchedChunks routePath clean)).filterMap
    (fun pr => if isParamChunk pr.1 then some (pr.1.tail, dec pr.2) else none)

/-- Path-parameter object of a matched clean path (the `params` object
after the `pathParamKeys.forEach` loop). -/
def pathParamsOf (routePath clean : Str) : Obj :=
  (paramPairs routePath clean).foldl (fun o pr => objSet o pr.1 pr.2) []

/-- Value of one pattern chunk after `computePath` substitution: a
parameter chunk becomes the percent-encoded value bound to its name, a
literal chunk stays (used to state the round-trip law). -/
def substChunk (ps : Obj) (c : Str) : Str :=
  if isParamChunk c then enc ((objGet ps c.tail).getD []) else c

/-- One step of the query-parameter merge of `getRouteWithParams`: write
the query value of a declared name unless the name is absent from the
query string or already bound (path parameters trump query parameters). -/
def mergeStep (qs : Str) (o : Obj) (name : Str) : Obj :=
  match searchParamsGet qs name with
  | some v => if objHas o name then o else objSet o name v
  | none => o

/-- Query-parameter merge of `getRouteWithParams`: the merge step over the
declared query names, in declaration order. -/
def mergeQueryParams (ps : Obj) (routePath qs : Str) : Obj :=
  (getQueryParamKeys routePath).foldl (mergeStep qs) ps

/-- Full extracted parameter object of a matched route for a given raw
path: positional path parameters, then the declared query parameters of
the pattern when a nonempty query string is present. -/
def fullParamsOf (routePath path : Str) : Obj :=
  let ps := pathParamsOf routePath (cleanPathPart path)
  match queryStringOf path with
  | some qs => mergeQueryParams ps routePath qs
  | none => ps

/-! ## Route resolution -/

/-- Registration-ordered route patterns with the keys already seen
dropped, as a `Map` does on re-insertion. -/
def dedupFirstAux (seen : List Str) : List Str → List Str
  | [] => []
  | x :: xs =>
    if seen.contains x then dedupFirstAux seen xs
    else x :: dedupFirstAux (seen ++ [x]) xs

/-- Registration-ordered route patterns with duplicates dropped, as stored
in the `Map` built by `buildRouteMatchers` (a `Map` keeps the first
insertion position of a key). -/
def dedupFirst (l : List Str) : List Str := dedupFirstAux [] l

/-- First invalid route pattern, if any: `buildRouteMatchers` calls
`validatePath` on each route path in order and throws at the first bad
one. -/
def firstInvalidPath : List Str → Option Str
  | [] => none
  | p :: rest => if isValidPath p then firstInvalidPath rest else some p

/-- Source `buildRouteMatchers`: validates every declared route path (the
whole string, query declaration included) and yields the matcher table,
modelled by its registration-ordered key list. -/
def buildRouteMatchers (routePaths : List Str) : Except Str (List Str) :=
  match firstInvalidPath routePaths with
  | some p => .error p
  | none => .ok (dedupFirst routePaths)

/-- Outcome of `getRouteWithParams`: the four exits of the source function.
`invalid` and `notFound` are thrown errors (`InvalidPathError` and
`RouteNotFoundError`); `matched` and `fallback` return a route.  The miss
callback `onMiss(cleanPath)` fires exactly in the `fallback` and `notFound`
exits, before the fallback lookup. -/
inductive ResolveOutcome where
  | invalid (cleanPath : Str)
  | matched (routePath : Str) (params : Obj)
  | fallback (cleanPath : Str) (fbPath : Str)
  | notFound (cleanPath : Str) (fbShown : Option Str)
deriving DecidableEq

/-- True for the two outcomes that return a route to activate. -/
def resolveOk : ResolveOutcome → Bool
  | .matched _ _ => true
  | .fallback _ _ => true
  | _ => false

/-- True for the two outcomes in which the miss callback has fired. -/
def isMiss : ResolveOutcome → Bool
  | .fallback _ _ => true
  | .notFound _ _ => true
  | _ => false

/-- Route pattern and params to activate, for the two `resolveOk`
outcomes (the fallback route activates with an empty params object). -/
def outcomeRoute : ResolveOutcome → Str × Obj
  | .matched rp ps => (rp, ps)
  | .fallback _ fb => (fb, [])
  | _ => ([], [])

/-- Source `getRouteWithParams`.  Splits off the query string, validates
the clean path (hard error, no miss, no fallback), scans the matcher table
in registration order for the first pattern whose compiled regex accepts
the clean path, and extracts its parameters; on no match it fires the miss
callback and then uses the configured fallback if that is a registered
route, else fails with `RouteNotFoundError` (mentioning a truthy configured
fallback).  The returned `realPath` of the source is dropped here: no
caller uses it. -/
def getRouteWithParams (routePaths : List Str) (fallbackPath : Option Str)
    (path : Str) : ResolveOutcome :=
  let clean := cleanPathPart path
  if !isValidPath clean then .invalid clean
  else
    match (dedupFirst routePaths).find? (fun rp => patternMatch rp clean) with
    | some rp => .matched rp (fullParamsOf rp path)
    | none =>
      match fallbackPath with
      | some fb =>
        if fb ≠ [] && routePaths.contains fb then .fallback clean fb
        else .notFound clean (if fb = [] then none else some fb)
      | none => .notFound clean none

/-! ## Path computation and navigation-time substitution -/

/-- Word character of the JavaScript regex class backslash-w. -/
def isWordChar (c : Char) : Bool := c.isAlphanum || c = '_'

mutual

/-- Source `computePath` substitution step: the global replace of `:` plus
a maximal nonempty run of word characters by the percent-encoded parameter
value, an absent or empty value substituting the empty string
(`params[key] || ''`).  `substScan acc s ps` is the scan inside a
candidate parameter name, `acc` holding the word characters read since the
`:`; on the first non-word character the name (if nonempty) is replaced
and scanning resumes at that character. -/
def substParams (s : Str) (ps : Obj) : Str :=
  match s with
  | [] => []
  | c :: rest =>
    if c = ':' then substScan [] rest ps
    else c :: substParams rest ps

def substScan (acc : Str) (s : Str) (ps : Obj) : Str :=
  match s with
  | [] => if acc.isEmpty then [':'] else enc ((objGet ps acc).getD [])
  | c :: rest =>
    if isWordChar c then substScan (acc ++ [c]) rest ps
    else
      (if acc.isEmpty then [':'] else enc ((objGet ps acc).getD [])) ++
        (if c = ':' then substScan [] rest ps else c :: substParams rest ps)

end

/-- Query pairs built by `computePath` and by the concrete-path branch of
`navigate`: for each declared query name with a defined value, the pair
percent-encoded name `=` percent-encoded value, in declaration order;
names with no defined value are omitted. -/
def buildQueryPairs (keys : List Str) (ps : Obj) : List Str :=
  keys.filterMap (fun k =>
    match objGet ps k with
    | some v => some (enc k ++ '=' :: enc v)
    | none => none)

/-- Source `computePath`: without params the pattern itself; with params,
the path part with parameters substituted, and — when the pattern has a
truthy query declaration — a query string built from the declared names
with defined values. -/
def computePath (path : Str) (ps? : Option Obj) : Str :=
  match ps? with
  | none => path
  | some ps =>
    let result := substParams (cleanPathPart path) ps
    match queryStringOf path with
    | some _ =>
      let pairs := buildQueryPairs (getQueryParamKeys path) ps
      if pairs.isEmpty then result
      else result ++ '?' :: intercalateC '&' pairs
    | none => result

/-- Source `findFullRoutePathForPathOnly`: the first registered route whose
path part equals the given template pattern (when the argument contains a
`:`) or whose compiled matcher accepts the given concrete path. -/
def findFullRoutePathForPathOnly (pathOnly : Str) (routePaths : List Str) :
    Option Str :=
  routePaths.find? (fun rp =>
    if hasChar ':' pathOnly then cleanPathPart rp = pathOnly
    else patternMatch rp pathOnly)

/-- Target concrete path of a `navigate` call, as computed by the source
before resolution: the path itself when no params object is passed;
otherwise `computePath`, except that a path-only argument (no `?`) whose
matching registered route declares query parameters is completed — a
template via `computePath` on the full route path, a concrete path by
appending the declared query pairs. -/
def navSubst (routePaths : List Str) (path : Str) (ps? : Option Obj) : Str :=
  match ps? with
  | none => path
  | some ps =>
    if !hasChar '?' path then
      match findFullRoutePathForPathOnly path routePaths with
      | some frp =>
        if hasChar '?' frp then
          if hasChar ':' path then computePath frp (some ps)
          else
            let pairs := buildQueryPairs (getQueryParamKeys frp) ps
            path ++ (if pairs.isEmpty then [] else '?' :: intercalateC '&' pairs)
        else computePath path (some ps)
      | none => computePath path (some ps)
    else computePath path (some ps)

/-! ## Navigation engine

The engine is modelled as a small-step system.  Lifecycle callbacks and
subscriber notifications are not executed but recorded as a trace of
events; a callback slot that a route does not populate is simply an event
nobody observes, so the trace records every call the source would attempt
through its optional-chaining calls.  Routes are identified by their
declared path string: the source compares route objects by reference, and
both references always come from `routes.find` on the same path string, so
reference equality coincides with path equality.

The host (`globalThis.location`, `history.pushState`, `hashchange`) is not
part of the repository; it is modelled from the spec: the location is a
single string; a history push rewrites it and notifies nobody; a hash
assignment rewrites it and queues exactly one location-change notification,
delivered later in FIFO order, whose handler reads the location current at
delivery time.  A `setTimeout` deferred activation (history mode) is a
queued task executed later in FIFO order. -/

/-- Activation state (`currState`): nullable current path and route, and
the current params object. -/
structure Act where
  path : Option Str
  route : Option Str
  params : Obj
deriving DecidableEq

/-- Recorded engine events: each lifecycle callback invocation the engine
performs (global and per-route), each subscriber notification with the
state it delivers, and each miss callback invocation. -/
inductive Ev where
  | globalEnter (route : Str) (params : Obj)
  | routeEnter (route : Str) (params : Obj)
  | globalExit (route : Str) (params : Obj)
  | routeExit (route : Str) (params : Obj)
  | globalParamChange (route : Str) (params prevParams : Obj)
  | routeParamChange (route : Str) (params prevParams : Obj)
  | notify (st : Act)
  | miss (path : Str)
deriving DecidableEq

/-- Events of the two resolution exits that fire the miss callback. -/
def resolveEvents : ResolveOutcome → List Ev
  | .fallback clean _ => [.miss clean]
  | .notFound clean _ => [.miss clean]
  | _ => []

/-- Source `activateRoute`: same route with equal params is a no-op; same
route with different params fires the global then the route param-change
callbacks, patches params and path, and notifies subscribers; a different
(or no) current route fires exit callbacks for the old route if any, then
the global and route enter callbacks, replaces the state, and notifies
subscribers. -/
def activateRoute (a : Act) (path route : Str) (params : Obj) : Act × List Ev :=
  match a.route with
  | some curr =>
    if curr = route then
      if shallowEqual params a.params then (a, [])
      else
        let a' : Act := ⟨some path, a.route, params⟩
        (a', [.globalParamChange route params a.params,
              .routeParamChange route params a.params, .notify a'])
    else
      let a' : Act := ⟨some path, some route, params⟩
      (a', [.globalExit curr a.params, .routeExit curr a.params,
            .globalEnter route params, .routeEnter route params, .notify a'])
  | none =>
    let a' : Act := ⟨some path, some route, params⟩
    (a', [.globalEnter route params, .routeEnter route params, .notify a'])

/-- Router configuration: registered route patterns in declaration order,
optional fallback pattern, and the mode (`history` true for `urlType:
'history'`, false for hash mode). -/
structure Cfg where
  routePaths : List Str
  fallbackPath : Option Str
  history : Bool

/-- Deferred `setTimeout` activation queued by history-mode `navigate`:
the target path, resolved route and params, and the promise it resolves. -/
structure DefTask where
  path : Str
  route : Str
  params : Obj
  id : Nat
deriving DecidableEq

/-- Engine plus host state: activation state, the pending-navigation queue
(hash mode), the queue of deferred `setTimeout` activations (history
mode), the location string, and the number of queued location-change
notifications. -/
structure Eng where
  act : Act
  pending : List (Str × Nat)
  deferred : List DefTask
  loc : Str
  notifs : Nat
deriving DecidableEq

/-- Fresh engine over a host location. -/
def initEng (loc : Str) : Eng := ⟨⟨none, none, []⟩, [], [], loc, 0⟩

/-- Errors a navigation can surface: `InvalidPathError` and
`RouteNotFoundError`. -/
inductive NavErr where
  | invalidPath (p : Str)
  | notFound (p : Str) (fbShown : Option Str)
deriving DecidableEq

deriving instance DecidableEq for Except

/-- Source `getPath`: the location in history mode; in hash mode the hash
fragment, an empty one normalized to the root path. -/
def getPathOf (cfg : Cfg) (e : Eng) : Str :=
  if cfg.history then e.loc
  else if e.loc = [] then ['/'] else e.loc

/-- Synchronous part of source `navigate` (and `navigateAny`, which is
`navigate` with no params argument): substitute the target path, resolve
it (which may throw `InvalidPathError` or — after firing the miss
callback — `RouteNotFoundError`), validate the full target string, then
either push the location and queue a deferred activation (history mode) or
append to the pending queue and assign the hash, queueing one
location-change notification (hash mode).  An error is returned to the
caller and leaves the engine untouched. -/
def navStep (cfg : Cfg) (e : Eng) (id : Nat) (path : Str) (ps? : Option Obj) :
    Except NavErr Eng × List Ev :=
  let pathStr := navSubst cfg.routePaths path ps?
  match getRouteWithParams cfg.routePaths cfg.fallbackPath pathStr with
  | .invalid p => (.error (.invalidPath p), [])
  | .notFound p fb => (.error (.notFound p fb), [.miss p])
  | .matched rp ps =>
    if !isValidPath pathStr then (.error (.invalidPath pathStr), [])
    else if cfg.history then
      (.ok { e with loc := pathStr, deferred := e.deferred ++ [⟨pathStr, rp, ps, id⟩] }, [])
    else
      (.ok { e with pending := e.pending ++ [(pathStr, id)], loc := pathStr,
                    notifs := e.notifs + 1 }, [])
  | .fallback clean fb =>
    if !isValidPath pathStr then (.error (.invalidPath pathStr), [.miss clean])
    else if cfg.history then
      (.ok { e with loc := pathStr, deferred := e.deferred ++ [⟨pathStr, fb, [], id⟩] },
        [.miss clean])
    else
      (.ok { e with pending := e.pending ++ [(pathStr, id)], loc := pathStr,
                    notifs := e.notifs + 1 }, [.miss clean])

/-- Source `handleUrlChange` applied to a path: resolve it, activate the
resolved route, then resolve the oldest pending navigation (if any) with
the state read after activation.  A thrown resolution error escapes the
event listener: nothing is activated and no pending entry is consumed. -/
def handleUrl (cfg : Cfg) (e : Eng) (path : Str) :
    Eng × List Ev × List (Nat × Act) :=
  match getRouteWithParams cfg.routePaths cfg.fallbackPath path with
  | .invalid _ => (e, [], [])
  | .notFound p _ => (e, [.miss p], [])
  | .matched rp ps =>
    let pr := activateRoute e.act path rp ps
    match e.pending with
    | [] => ({ e with act := pr.1 }, pr.2, [])
    | x :: rest => ({ e with act := pr.1, pending := rest }, pr.2, [(x.2, pr.1)])
  | .fallback clean fb =>
    let pr := activateRoute e.act path fb []
    match e.pending with
    | [] => ({ e with act := pr.1 }, .miss clean :: pr.2, [])
    | x :: rest =>
      ({ e with act := pr.1, pending := rest }, .miss clean :: pr.2, [(x.2, pr.1)])

/-- Delivery of one queued location-change notification (hash mode): the
listener runs `handleUrlChange(getPath())` against the location current at
delivery time.  Without a queued notification nothing happens. -/
def deliverHash (cfg : Cfg) (e : Eng) : Eng × List Ev × List (Nat × Act) :=
  if e.notifs = 0 then (e, [], [])
  else handleUrl cfg { e with notifs := e.notifs - 1 } (getPathOf cfg e)

/-- Execution of the oldest deferred `setTimeout` activation (history
mode): activate the stored route and resolve the stored promise with the
state read after activation. -/
def runDeferred (e : Eng) : Eng × List Ev × List (Nat × Act) :=
  match e.deferred with
  | [] => (e, [], [])
  | t :: rest =>
    let pr := activateRoute e.act t.path t.route t.params
    ({ e with act := pr.1, deferred := rest }, pr.2, [(t.id, pr.1)])

/-! ## Scenario runner -/

/-- One step of a concrete scenario: a `navigate`/`navigateAny` call, a
location-change notification delivery, or a deferred-task execution. -/
inductive Actn where
  | nav (id : Nat) (path : Str)
  | navP (id : Nat) (path : Str) (ps : Obj)
  | deliver
  | tick
deriving DecidableEq

/-- Accumulated scenario state: engine, event trace, resolved promises in
resolution order (with the state each resolved to), and surfaced errors. -/
structure RunSt where
  eng : Eng
  evs : List Ev
  res : List (Nat × Act)
  errs : List NavErr
deriving DecidableEq

/-- One scenario step. -/
def stepActn (cfg : Cfg) (s : RunSt) (a : Actn) : RunSt :=
  match a with
  | .nav id p =>
    match navStep cfg s.eng id p none with
    | (.ok e', evs) => { s with eng := e', evs := s.evs ++ evs }
    | (.error er, evs) => { s with evs := s.evs ++ evs, errs := s.errs ++ [er] }
  | .navP id p ps =>
    match navStep cfg s.eng id p (some ps) with
    | (.ok e', evs) => { s with eng := e', evs := s.evs ++ evs }
    | (.error er, evs) => { s with evs := s.evs ++ evs, errs := s.errs ++ [er] }
  | .deliver =>
    let r := deliverHash cfg s.eng
    { s with eng := r.1, evs := s.evs ++ r.2.1, res := s.res ++ r.2.2 }
  | .tick =>
    let r := runDeferred s.eng
    { s with eng := r.1, evs := s.evs ++ r.2.1, res := s.res ++ r.2.2 }

/-- Scenario execution from a freshly constructed router: source `init`
runs `handleUrlChange(getPath())` once (with an empty pending queue), then
the listed steps run in order. -/
def runScenario (cfg : Cfg) (loc : Str) (actns : List Actn) : RunSt :=
  let e := initEng loc
  let r := handleUrl cfg e (getPathOf cfg e)
  actns.foldl (stepActn cfg) ⟨r.1, r.2.1, r.2.2, []⟩

/-- Number of route-enter callback invocations for a given route in a
trace. -/
def countRouteEnter (evs : List Ev) (r : Str) : Nat :=
  (evs.filter (fun ev =>
    match ev with
    | .routeEnter r' _ => r' = r
    | _ => false)).length

/-- Miss callback invocations in a trace, in order. -/
def missEvents (evs : List Ev) : List Ev :=
  evs.filter (fun ev =>
    match ev with
    | .miss _ => true
    | _ => false)

/-! ## Pattern well-formedness

The chunkwise matcher above is the exact semantics of the compiled regex
for patterns in which every chunk is either a whole parameter token with a
word-character name or a literal free of regex metacharacters; `wfPattern`
captures this class, and the claims that quantify over route tables assume
it.  (Outside it the source regex has non-segment behavior: a chunk such
as `a:b` compiles to a literal `a` followed by a capture group, and regex
metacharacters in literals are interpreted, not matched byte-for-byte.) -/

/-- Characters with a special meaning in a JavaScript regular expression
(braces and backslash are tested by code point). -/
def regexSpecialChar (c : Char) : Bool :=
  c.toNat = 92 || c = '^' || c = '$' || c = '.' || c = '|' || c = '?' ||
    c = '*' || c = '+' || c = '(' || c = ')' || c = '[' || c = ']' ||
    c.toNat = 123 || c.toNat = 125

/-- Well-formed pattern chunk: a parameter token whose name consists of
word characters, or a literal with no colon and no regex metacharacter. -/
def wfChunk (ch : Str) : Bool :=
  if isParamChunk ch then ch.tail.all isWordChar
  else !hasChar ':' ch && ch.all (fun c => !regexSpecialChar c)

/-- Well-formed route pattern: every chunk of its path part is
well-formed. -/
def wfPattern (rp : Str) : Bool := (patternChunks rp).all wfChunk

/-- A fallback configuration the resolver can actually use: a truthy
configured pattern that is registered. -/
def usableFallback (routePaths : List Str) (fb? : Option Str) : Bool :=
  match fb? with
  | some fb => fb ≠ [] && routePaths.contains fb
  | none => false

/-- Fallback pattern as shown in a `RouteNotFoundError` (only a truthy
configured one is mentioned). -/
def fbShown : Option Str → Option Str
  | some fb => if fb = [] then none else some fb
  | none => none

/-! ## General lemmas -/

theorem firstInvalidPath_of_mem (l : List Str) (p : Str) (hp : p ∈ l)
    (hbad : isValidPath p = false) :
    ∃ q, firstInvalidPath l = some q ∧ isValidPath q = false := by
  induction l with
  | nil => cases hp
  | cons a rest ih =>
    by_cases ha : isValidPath a = true
    · rcases List.mem_cons.mp hp with rfl | hp
      · rw [ha] at hbad; cases hbad
      · rcases ih hp with ⟨q, hq1, hq2⟩
        exact ⟨q, by simp [firstInvalidPath, ha, hq1], hq2⟩
    · refine ⟨a, by simp [firstInvalidPath, ha], by simpa using ha⟩

theorem dedupFirstAux_find? (l : List Str) (f : Str → Bool) :
    ∀ seen : List Str, (∀ y ∈ seen, f y = false) →
      (dedupFirstAux seen l).find? f = l.find? f := by
  induction l with
  | nil => intro seen _; rfl
  | cons x xs ih =>
    intro seen hseen
    rw [dedupFirstAux]
    by_cases hx : seen.contains x = true
    · have hfx : f x = false := hseen x (by simpa using hx)
      rw [if_pos hx, List.find?_cons, hfx]
      exact ih seen hseen
    · rw [if_neg hx, List.find?_cons, List.find?_cons]
      cases hfx : f x
      · refine ih (seen ++ [x]) ?_
        intro y hy
        rcases List.mem_append.mp hy with hy | hy
        · exact hseen y hy
        · rcases List.mem_singleton.mp hy with rfl
          exact hfx
      · rfl

theorem dedupFirst_find? (l : List Str) (f : Str → Bool) :
    (dedupFirst l).find? f = l.find? f :=
  dedupFirstAux_find? l f [] (by intro y hy; cases hy)

theorem getRouteWithParams_invalid (routePaths : List Str) (fb : Option Str)
    (path : Str) (h : hasDoubleSlash (cleanPathPart path) = true) :
    getRouteWithParams routePaths fb path = .invalid (cleanPathPart path) := by
  simp [getRouteWithParams, isValidPath, h]

theorem objHas_eq_isSome (o : Obj) (k : Str) :
    objHas o k = (objGet o k).isSome := by
  rw [objHas, objGet]
  cases o.find? (fun p => p.1 = k) <;> rfl

theorem find?_map_update_self (o : Obj) (k v : Str)
    (h : (o.find? (fun p => p.1 = k)).isSome = true) :
    (o.map (fun p => if p.1 = k then (k, v) else p)).find?
      (fun p => p.1 = k) = some (k, v) := by
  induction o with
  | nil => simp at h
  | cons p rest ih =>
    by_cases hp : p.1 = k
    · simp only [List.map_cons, if_pos hp]
      exact List.find?_cons_of_pos _ (by simp)
    · simp only [List.map_cons, if_neg hp]
      rw [List.find?_cons_of_neg _ (by simp [hp])]
      rw [List.find?_cons_of_neg _ (by simp [hp])] at h
      exact ih h

theorem find?_map_update_ne (o : Obj) (k v k' : Str) (hne : k' ≠ k) :
    (o.map (fun p => if p.1 = k then (k, v) else p)).find?
      (fun p => p.1 = k') = o.find? (fun p => p.1 = k') := by
  induction o with
  | nil => rfl
  | cons p rest ih =>
    by_cases hp : p.1 = k
    · simp only [List.map_cons, if_pos hp]
      rw [List.find?_cons_of_neg _ (by simp [Ne.symm hne]),
        List.find?_cons_of_neg _ (by simp [hp, Ne.symm hne]), ih]
    · simp only [List.map_cons, if_neg hp]
      by_cases hp' : p.1 = k'
      · rw [List.find?_cons_of_pos _ (by simp [hp']),
          List.find?_cons_of_pos _ (by simp [hp'])]
      · rw [List.find?_cons_of_neg _ (by simp [hp']),
          List.find?_cons_of_neg _ (by simp [hp']), ih]

theorem find?_none_of_not_isSome (o : Obj) (k : Str)
    (h : ¬(o.find? (fun p => p.1 = k)).isSome = true) :
    o.find? (fun p => p.1 = k) = none := by
  cases hf : o.find? (fun p => p.1 = k)
  · rfl
  · rw [hf] at h; cases h rfl

theorem find?_append_single (o : Obj) (k v : Str)
    (h : ∀ x ∈ o, x.1 = k → False) :
    (o ++ [(k, v)]).find? (fun p => p.1 = k) = some (k, v) := by
  induction o with
  | nil => simp
  | cons p rest ih =>
    rw [List.cons_append,
      List.find?_cons_of_neg _ (by simpa using fun hp => h p (by simp) hp)]
    exact ih (fun x hx hxk => h x (by simp [hx]) hxk)

theorem find?_append_single_ne (o : Obj) (k v k' : Str) (hne : k' ≠ k) :
    (o ++ [(k, v)]).find? (fun p => p.1 = k') =
      o.find? (fun p => p.1 = k') := by
  induction o with
  | nil => simp [Ne.symm hne]
  | cons p rest ih =>
    rw [List.cons_append]
    by_cases hp : p.1 = k'
    · rw [List.find?_cons_of_pos _ (by simp [hp]),
        List.find?_cons_of_pos _ (by simp [hp])]
    · rw [List.find?_cons_of_neg _ (by simp [hp]),
        List.find?_cons_of_neg _ (by simp [hp]), ih]

theorem objGet_objSet_self (o : Obj) (k v : Str) :
    objGet (objSet o k v) k = some v := by
  rw [objSet]
  by_cases h : objHas o k = true
  · rw [if_pos h, objGet, find?_map_update_self o k v (by rwa [objHas] at h)]
    rfl
  · rw [if_neg h, objGet, find?_append_single o k v ?_]
    · rfl
    · intro x hx hxk
      rw [objHas] at h
      have h0 := List.find?_eq_none.mp (find?_none_of_not_isSome o k h) x hx
      simp [hxk] at h0

theorem objGet_objSet_ne (o : Obj) (k v k' : Str) (hne : k' ≠ k) :
    objGet (objSet o k v) k' = objGet o k' := by
  rw [objSet]
  by_cases h : objHas o k = true
  · rw [if_pos h, objGet, find?_map_update_ne o k v k' hne]; rfl
  · rw [if_neg h, objGet, objGet, find?_append_single_ne o k v k' hne]


/-! ## Claim theorems -/

/-- C2: an input path whose portion before the first `?` contains `//`
makes resolution fail with `InvalidPathError` as a hard synchronous error
— no miss callback, no fallback (the resolver exits before the matcher
loop and the fallback lookup); a `navigate`/`navigateAny` call on such a
path surfaces exactly that error and fires no event; and `createRouter`
fails at construction (`buildRouteMatchers` validates every declared route
path) whenever some registered pattern is invalid. -/
theorem invalid_path_hard_error :
    (∀ (routePaths : List Str) (fb : Option Str) (path : Str),
      hasDoubleSlash (cleanPathPart path) = true →
        getRouteWithParams routePaths fb path = .invalid (cleanPathPart path) ∧
        resolveEvents (getRouteWithParams routePaths fb path) = []) ∧
    (∀ (cfg : Cfg) (e : Eng) (id : Nat) (path : Str),
      hasDoubleSlash (cleanPathPart path) = true →
        navStep cfg e id path none =
          (.error (.invalidPath (cleanPathPart path)), [])) ∧
    (∀ routePaths : List Str,
      (∃ p ∈ routePaths, isValidPath p = false) →
        ∃ q, buildRouteMatchers routePaths = .error q ∧ isValidPath q = false) := by
  refine ⟨fun routePaths fb path h => ?_, fun cfg e id path h => ?_,
    fun routePaths hex => ?_⟩
  · have h1 := getRouteWithParams_invalid routePaths fb path h
    exact ⟨h1, by rw [h1]; rfl⟩
  · have h1 := getRouteWithParams_invalid cfg.routePaths cfg.fallbackPath path h
    simp only [navStep, navSubst, h1]
  · rcases hex with ⟨p, hp, hbad⟩
    rcases firstInvalidPath_of_mem routePaths p hp hbad with ⟨q, hq, hqbad⟩
    exact ⟨q, by simp [buildRouteMatchers, hq], hqbad⟩

/-- Witness for C2: `navigateAny("///")` and `navigateAny("/a//b")` fail
with `InvalidPathError` without firing the miss callback, and registering
the pattern `"/a//b"` fails at construction. -/
theorem invalid_path_hard_error_witness :
    (getRouteWithParams [str "/", str "/a/:b"] (some (str "/")) (str "///") =
      .invalid (str "///")) ∧
    (navStep ⟨[str "/", str "/a/:b"], some (str "/"), false⟩ (initEng []) 1
      (str "///") none = (.error (.invalidPath (str "///")), [])) ∧
    (navStep ⟨[str "/", str "/a/:b"], some (str "/"), false⟩ (initEng []) 2
      (str "/a//b") none = (.error (.invalidPath (str "/a//b")), [])) ∧
    (∃ q, buildRouteMatchers [str "/", str "/a//b"] = .error q ∧
      isValidPath q = false) :=
  ⟨(invalid_path_hard_error.1 _ _ _ (by decide)).1,
   invalid_path_hard_error.2.1 _ _ _ _ (by decide),
   invalid_path_hard_error.2.1 _ _ _ _ (by decide),
   invalid_path_hard_error.2.2 _ ⟨str "/a//b", by decide, by decide⟩⟩

/-- C3: an activation for the currently routed route with params that are
not shallow-equal to the current ones fires no enter or exit callback;
it fires the global param-change callback first, then the route's, each
with the new and the previous params, and then notifies subscribers with
the patched state. -/
theorem param_change_same_route (a : Act) (r path : Str) (p' : Obj)
    (h1 : a.route = some r) (h2 : shallowEqual p' a.params = false) :
    activateRoute a path r p' =
      (⟨some path, some r, p'⟩,
       [.globalParamChange r p' a.params, .routeParamChange r p' a.params,
        .notify ⟨some path, some r, p'⟩]) := by
  simp [activateRoute, h1, h2]

/-- Witness for C3: navigating from `/user/123` to `/user/456` on the
pattern `/user/:id` fires exactly the two param-change callbacks and the
subscriber notification, with `prevParams.id = "123"` and
`params.id = "456"`. -/
theorem param_change_same_route_witness :
    activateRoute
        ⟨some (str "/user/123"), some (str "/user/:id"), [(str "id", str "123")]⟩
        (str "/user/456") (str "/user/:id") [(str "id", str "456")] =
      (⟨some (str "/user/456"), some (str "/user/:id"), [(str "id", str "456")]⟩,
       [.globalParamChange (str "/user/:id") [(str "id", str "456")]
          [(str "id", str "123")],
        .routeParamChange (str "/user/:id") [(str "id", str "456")]
          [(str "id", str "123")],
        .notify ⟨some (str "/user/456"), some (str "/user/:id"),
          [(str "id", str "456")]⟩]) ∧
    objGet [(str "id", str "123")] (str "id") = some (str "123") ∧
    objGet [(str "id", str "456")] (str "id") = some (str "456") :=
  ⟨param_change_same_route _ _ _ _ rfl (by decide), by decide, by decide⟩

/-- C4: re-activation of the current route with shallow-equal params is a
no-op — no callback fires, no subscriber is notified, the state record is
unchanged; consequently two consecutive `navigate` calls with the same
resulting concrete path (the scenario runs `/user/123` twice in hash mode)
produce exactly one route-enter invocation, both promises still resolve,
and no error occurs. -/
theorem idempotent_reactivation :
    (∀ (a : Act) (r path : Str) (p' : Obj),
      a.route = some r → shallowEqual p' a.params = true →
        activateRoute a path r p' = (a, [])) ∧
    (let s := runScenario ⟨[str "/", str "/user/:id"], none, false⟩ []
        [.nav 1 (str "/user/123"), .nav 2 (str "/user/123"),
         .deliver, .deliver]
     countRouteEnter s.evs (str "/user/:id") = 1 ∧
     s.res.map Prod.fst = [1, 2] ∧ s.errs = []) := by
  refine ⟨fun a r path p' h1 h2 => ?_, by decide⟩
  simp [activateRoute, h1, h2]

/-- Witness for C4: the no-op branch at a concrete routed state with
reordered but equal params. -/
theorem idempotent_reactivation_witness :
    activateRoute
        ⟨some (str "/u/1/2"), some (str "/u/:a/:b"),
          [(str "a", str "1"), (str "b", str "2")]⟩
        (str "/u/1/2") (str "/u/:a/:b")
        [(str "b", str "2"), (str "a", str "1")] =
      (⟨some (str "/u/1/2"), some (str "/u/:a/:b"),
        [(str "a", str "1"), (str "b", str "2")]⟩, []) :=
  idempotent_reactivation.1 _ _ _ _ rfl (by decide)

/-- C8: in fragment (hash) mode a delivered location-change notification
always resolves the oldest pending navigation — whatever entry sits at the
head of the queue and whatever the observed location is — and leaves the
rest of the queue; hence three navigations to `/a`, `/b`, `/c` issued
before any notification is delivered resolve in exactly that order, with
`/c` the terminal activation state. -/
theorem fifo_resolution :
    (∀ (cfg : Cfg) (e : Eng) (p : Str) (id : Nat) (rest : List (Str × Nat)),
      cfg.history = false → e.notifs ≠ 0 → e.pending = (p, id) :: rest →
      resolveOk (getRouteWithParams cfg.routePaths cfg.fallbackPath
        (getPathOf cfg e)) = true →
      (deliverHash cfg e).2.2.map Prod.fst = [id] ∧
      (deliverHash cfg e).1.pending = rest) ∧
    (let s := runScenario ⟨[str "/", str "/a", str "/b", str "/c"], none, false⟩
        []
        [.nav 1 (str "/a"), .nav 2 (str "/b"), .nav 3 (str "/c"),
         .deliver, .deliver, .deliver]
     s.res.map Prod.fst = [1, 2, 3] ∧
     s.eng.act.path = some (str "/c") ∧
     s.eng.act.route = some (str "/c") ∧ s.errs = []) := by
  refine ⟨fun cfg e p id rest hmode hn hp hok => ?_, by decide⟩
  rw [deliverHash, if_neg hn]
  rcases hout : getRouteWithParams cfg.routePaths cfg.fallbackPath
      (getPathOf cfg e) with p' | ⟨rp, ps⟩ | ⟨cl, fb⟩ | ⟨cl, f⟩
  · rw [hout] at hok; simp [resolveOk] at hok
  · simp [handleUrl, hout, hp]
  · simp [handleUrl, hout, hp]
  · rw [hout] at hok; simp [resolveOk] at hok

/-- Witness for C8: a delivery against a queue holding two entries, with a
location unrelated to the head entry, resolves the head entry. -/
theorem fifo_resolution_witness :
    (deliverHash ⟨[str "/", str "/a", str "/b", str "/c"], none, false⟩
      ⟨⟨some (str "/a"), some (str "/a"), []⟩,
        [(str "/b", 7), (str "/c", 8)], [], str "/c", 2⟩).2.2.map Prod.fst =
      [7] ∧
    (deliverHash ⟨[str "/", str "/a", str "/b", str "/c"], none, false⟩
      ⟨⟨some (str "/a"), some (str "/a"), []⟩,
        [(str "/b", 7), (str "/c", 8)], [], str "/c", 2⟩).1.pending =
      [(str "/c", 8)] :=
  fifo_resolution.1 _ _ (str "/b") 7 [(str "/c", 8)] rfl (by decide) rfl
    (by decide)

/-- C1: on a valid clean path, resolution returns the first registered
route (in registration order) whose compiled pattern matches the clean
path — the matcher table iterates in registration order and overlapping
patterns are settled by declaration order only — and a miss (the miss
callback with the clean path, then fallback or `RouteNotFoundError`) when
no pattern matches. -/
theorem resolve_first_match (routePaths : List Str) (fb : Option Str)
    (path : Str) (_hwf : ∀ rp ∈ routePaths, wfPattern rp = true)
    (hv : isValidPath (cleanPathPart path) = true) :
    (∀ rp, routePaths.find?
        (fun q => patternMatch q (cleanPathPart path)) = some rp →
      getRouteWithParams routePaths fb path = .matched rp (fullParamsOf rp path)) ∧
    (routePaths.find? (fun q => patternMatch q (cleanPathPart path)) = none →
      isMiss (getRouteWithParams routePaths fb path) = true ∧
      resolveEvents (getRouteWithParams routePaths fb path) =
        [.miss (cleanPathPart path)]) := by
  constructor
  · intro rp hfind
    simp only [getRouteWithParams, hv, Bool.not_true, Bool.false_eq_true,
      if_false, dedupFirst_find?, hfind]
  · intro hnone
    rcases fb with _ | f
    · have hg : getRouteWithParams routePaths none path =
          .notFound (cleanPathPart path) none := by
        simp only [getRouteWithParams, hv, Bool.not_true, Bool.false_eq_true,
          if_false, dedupFirst_find?, hnone]
      rw [hg]; exact ⟨rfl, rfl⟩
    · by_cases hf : (f ≠ [] && routePaths.contains f) = true
      · have hg : getRouteWithParams routePaths (some f) path =
            .fallback (cleanPathPart path) f := by
          simp only [getRouteWithParams, hv, Bool.not_true, Bool.false_eq_true,
            if_false, dedupFirst_find?, hnone]
          rw [if_pos hf]
        rw [hg]; exact ⟨rfl, rfl⟩
      · have hg : getRouteWithParams routePaths (some f) path =
            .notFound (cleanPathPart path) (if f = [] then none else some f) := by
          simp only [getRouteWithParams, hv, Bool.not_true, Bool.false_eq_true,
            if_false, dedupFirst_find?, hnone]
          rw [if_neg hf]
        rw [hg]; exact ⟨rfl, rfl⟩

/-- Witness for C1: in a table registering `/user/profile` before
`/user/:id` before `/:section/:id`, the path `/user/profile` resolves to
the literal route, `/user/123/` (trailing slash tolerated) to `/user/:id`,
and `/blog/456` to `/:section/:id`; an unmatched `/a/b/c` is a miss. -/
theorem resolve_first_match_witness :
    getRouteWithParams
        [str "/", str "/user/profile", str "/user/:id", str "/:section/:id"]
        none (str "/user/profile") =
      .matched (str "/user/profile") [] ∧
    getRouteWithParams
        [str "/", str "/user/profile", str "/user/:id", str "/:section/:id"]
        none (str "/user/123/") =
      .matched (str "/user/:id") [(str "id", str "123")] ∧
    getRouteWithParams
        [str "/", str "/user/profile", str "/user/:id", str "/:section/:id"]
        none (str "/blog/456") =
      .matched (str "/:section/:id")
        [(str "section", str "blog"), (str "id", str "456")] ∧
    isMiss (getRouteWithParams
        [str "/", str "/user/profile", str "/user/:id", str "/:section/:id"]
        none (str "/a/b/c")) = true := by
  refine ⟨?_, ?_, ?_, ?_⟩
  · exact ((resolve_first_match _ none _ (by decide) (by decide)).1
      (str "/user/profile") (by decide)).trans (by decide)
  · exact ((resolve_first_match _ none _ (by decide) (by decide)).1
      (str "/user/:id") (by decide)).trans (by decide)
  · exact ((resolve_first_match _ none _ (by decide) (by decide)).1
      (str "/:section/:id") (by decide)).trans (by decide)
  · exact ((resolve_first_match _ none _ (by decide) (by decide)).2
      (by decide)).1

theorem coreMatch_matchedChunks (rp clean : Str)
    (h : patternMatch rp clean = true) :
    coreMatch (patternChunks rp) (matchedChunks rp clean) = true := by
  rw [patternMatch] at h
  rw [matchedChunks]
  cases hc : coreMatch (patternChunks rp) (splitOnC '/' clean) with
  | true => simpa using hc
  | false =>
    rw [hc, Bool.false_or] at h
    simp only [Bool.and_eq_true] at h
    simpa using h.2

theorem zip_filterMap_fst (f : Str → Bool) (g : Str → Str → Str × Str)
    (hg : ∀ a b, (g a b).1 = a.tail) :
    ∀ (ps cs : List Str), ps.length = cs.length →
      ((ps.zip cs).filterMap
        (fun pr => if f pr.1 then some (g pr.1 pr.2) else none)).map Prod.fst =
      ps.filterMap (fun ch => if f ch then some ch.tail else none) := by
  intro ps
  induction ps with
  | nil => intro cs _; rfl
  | cons p ps' ih =>
    intro cs hlen
    cases cs with
    | nil => simp at hlen
    | cons c cs' =>
      rw [List.zip_cons_cons]
      by_cases hf : f p = true
      · simp only [List.filterMap_cons, hf, if_pos]
        rw [List.map_cons, hg p c, ih cs' (by simpa using hlen)]
      · simp only [List.filterMap_cons, if_neg hf]
        exact ih cs' (by simpa using hlen)

theorem coreMatch_length :
    ∀ ps cs : List Str, coreMatch ps cs = true → ps.length = cs.length := by
  intro ps
  induction ps with
  | nil => intro cs h; cases cs with
    | nil => rfl
    | cons c cs' => simp [coreMatch] at h
  | cons p ps' ih =>
    intro cs h
    cases cs with
    | nil => simp [coreMatch] at h
    | cons c cs' =>
      rw [coreMatch] at h
      simp only [Bool.and_eq_true] at h
      simp only [List.length_cons]
      exact congrArg (· + 1) (ih cs' h.2)

theorem paramPairs_fst (rp clean : Str) (h : patternMatch rp clean = true) :
    (paramPairs rp clean).map Prod.fst = pathParamKeys rp := by
  rw [paramPairs, pathParamKeys]
  exact zip_filterMap_fst isParamChunk (fun a b => (a.tail, dec b))
    (fun _ _ => rfl) _ _
    (coreMatch_length _ _ (coreMatch_matchedChunks rp clean h))

theorem objHas_foldl_objSet (prs : List (Str × Str)) (k : Str) :
    ∀ o : Obj, objHas o k = true ∨ k ∈ prs.map Prod.fst →
      objHas (prs.foldl (fun o pr => objSet o pr.1 pr.2) o) k = true := by
  induction prs with
  | nil =>
    intro o h
    rcases h with h | h
    · exact h
    · cases h
  | cons pr rest ih =>
    intro o h
    rw [List.foldl_cons]
    apply ih
    rcases h with h | h
    · left
      by_cases hk : k = pr.1
      · subst hk
        rw [objHas_eq_isSome, objGet_objSet_self]; rfl
      · rw [objHas_eq_isSome, objGet_objSet_ne _ _ _ _ hk, ← objHas_eq_isSome]
        exact h
    · rw [List.map_cons] at h
      rcases List.mem_cons.mp h with rfl | h
      · left; rw [objHas_eq_isSome, objGet_objSet_self]; rfl
      · right; exact h

theorem mergeQuery_get_of_has (qs : Str) (k : Str) (names : List Str) :
    ∀ base : Obj, objHas base k = true →
      objGet (names.foldl (mergeStep qs) base) k = objGet base k := by
  induction names with
  | nil => intro base _; rfl
  | cons n ns ih =>
    intro base hb
    rw [List.foldl_cons]
    rcases hsv : searchParamsGet qs n with _ | v
    · rw [show mergeStep qs base n = base by rw [mergeStep, hsv]]
      exact ih base hb
    · by_cases hh : objHas base n = true
      · rw [show mergeStep qs base n = base by
          rw [mergeStep, hsv]; exact if_pos hh]
        exact ih base hb
      · have hkn : k ≠ n := fun hkn => hh (hkn ▸ hb)
        rw [show mergeStep qs base n = objSet base n v by
          rw [mergeStep, hsv]; exact if_neg hh]
        have hb' : objHas (objSet base n v) k = true := by
          rw [objHas_eq_isSome, objGet_objSet_ne _ _ _ _ hkn,
            ← objHas_eq_isSome]
          exact hb
        rw [ih (objSet base n v) hb', objGet_objSet_ne _ _ _ _ hkn]

theorem splitOnC_ne_nil (sep : Char) (s : Str) : splitOnC sep s ≠ [] := by
  induction s with
  | nil => simp [splitOnC]
  | cons c rest ih =>
    rw [splitOnC]
    by_cases hc : c = sep
    · simp [hc]
    · rw [if_neg hc]
      rcases hs : splitOnC sep rest with _ | ⟨h0, t⟩
      · exact absurd hs ih
      · simp

theorem intercalateC_splitOnC (sep : Char) (s : Str) :
    intercalateC sep (splitOnC sep s) = s := by
  induction s with
  | nil => rfl
  | cons c rest ih =>
    rw [splitOnC]
    rcases hs : splitOnC sep rest with _ | ⟨h0, t⟩
    · exact absurd hs (splitOnC_ne_nil sep rest)
    · rw [hs] at ih
      by_cases hc : c = sep
      · rw [if_pos hc, intercalateC, hc]
        exact congrArg (sep :: ·) ih
      · rw [if_neg hc]
        rcases t with _ | ⟨y, t'⟩
        · rw [intercalateC] at ih ⊢
          exact congrArg (c :: ·) ih
        · rw [intercalateC] at ih ⊢
          rw [List.cons_append]
          exact congrArg (c :: ·) ih

theorem cleanPathPart_append (path : Str) :
    ∃ t, cleanPathPart path ++ t = path := by
  have h := intercalateC_splitOnC '?' path
  rcases hs : splitOnC '?' path with _ | ⟨h0, t⟩
  · exact absurd hs (splitOnC_ne_nil _ _)
  · rw [hs] at h
    rw [cleanPathPart, hs]
    rcases t with _ | ⟨y, t'⟩
    · exact ⟨[], by simpa [intercalateC] using h⟩
    · exact ⟨'?' :: intercalateC '?' (y :: t'), by simpa [intercalateC] using h⟩

theorem hasDoubleSlash_append_left (l t : Str)
    (h : hasDoubleSlash l = true) : hasDoubleSlash (l ++ t) = true := by
  induction l with
  | nil => simp [hasDoubleSlash] at h
  | cons a rest ih =>
    cases rest with
    | nil => simp [hasDoubleSlash] at h
    | cons b rest' =>
      rw [hasDoubleSlash] at h
      rw [List.cons_append, List.cons_append, hasDoubleSlash,
        ← List.cons_append]
      rcases Bool.or_eq_true _ _ ▸ h with h1 | h2
      · rw [h1, Bool.true_or]
      · rw [ih h2, Bool.or_true]

theorem isValidPath_clean (path : Str) (hv : isValidPath path = true) :
    isValidPath (cleanPathPart path) = true := by
  rcases cleanPathPart_append path with ⟨t, ht⟩
  rw [isValidPath] at hv ⊢
  cases hds : hasDoubleSlash (cleanPathPart path)
  · rfl
  · rw [← ht, hasDoubleSlash_append_left _ _ hds] at hv
    cases hv

theorem getRouteWithParams_notFound (routePaths : List Str) (fb : Option Str)
    (path : Str) (hv : isValidPath (cleanPathPart path) = true)
    (hnm : ∀ rp ∈ routePaths, patternMatch rp (cleanPathPart path) = false)
    (hfb : usableFallback routePaths fb = false) :
    getRouteWithParams routePaths fb path =
      .notFound (cleanPathPart path) (fbShown fb) := by
  have hfind : routePaths.find?
      (fun q => patternMatch q (cleanPathPart path)) = none :=
    List.find?_eq_none.mpr (fun x hx => by simp [hnm x hx])
  simp only [getRouteWithParams, hv, Bool.not_true, Bool.false_eq_true,
    if_false, dedupFirst_find?, hfind]
  rcases fb with _ | f
  · rfl
  · rw [usableFallback] at hfb
    show (if (decide (f ≠ []) && routePaths.contains f) = true then
        ResolveOutcome.fallback (cleanPathPart path) f
      else .notFound (cleanPathPart path) (if f = [] then none else some f)) =
      .notFound (cleanPathPart path) (fbShown (some f))
    rw [if_neg (by rw [hfb]; exact Bool.false_ne_true)]
    rfl

theorem getRouteWithParams_usable_fallback (routePaths : List Str) (f : Str)
    (path : Str) (hv : isValidPath (cleanPathPart path) = true)
    (hnm : ∀ rp ∈ routePaths, patternMatch rp (cleanPathPart path) = false)
    (hne : f ≠ []) (hmem : f ∈ routePaths) :
    getRouteWithParams routePaths (some f) path =
      .fallback (cleanPathPart path) f := by
  have hfind : routePaths.find?
      (fun q => patternMatch q (cleanPathPart path)) = none :=
    List.find?_eq_none.mpr (fun x hx => by simp [hnm x hx])
  simp only [getRouteWithParams, hv, Bool.not_true, Bool.false_eq_true,
    if_false, dedupFirst_find?, hfind]
  rw [if_pos (by simp [hne, hmem])]

theorem shallowEqual_nil_left (o : Obj) (h : shallowEqual [] o = true) :
    o = [] := by
  rw [shallowEqual] at h
  simp only [Bool.and_eq_true, List.all_nil, and_true, List.length_nil,
    decide_eq_true_eq] at h
  exact List.eq_nil_of_length_eq_zero h.symm

theorem activateRoute_empty_params (a : Act) (path r : Str) :
    (activateRoute a path r []).1.route = some r ∧
    (activateRoute a path r []).1.params = [] ∧
    missEvents (activateRoute a path r []).2 = [] := by
  rw [activateRoute]
  rcases ha : a.route with _ | curr
  · exact ⟨rfl, rfl, rfl⟩
  · by_cases hc : curr = r
    · subst hc
      cases hsh : shallowEqual [] a.params
      · simp [hsh, missEvents]
      · simp [hsh, ha, shallowEqual_nil_left a.params hsh, missEvents]
    · simp [hc, missEvents]

/-- C5: in a matched route, a declared query name that collides with a
path-parameter name is never written: the extracted params bind every
path-parameter name to exactly what positional path extraction produced,
with the query merge unable to touch it. -/
theorem path_params_trump_query (routePaths : List Str) (fb : Option Str)
    (path rp : Str) (ps : Obj) (k : Str)
    (h : getRouteWithParams routePaths fb path = .matched rp ps)
    (hk : k ∈ pathParamKeys rp) :
    objGet ps k = objGet (pathParamsOf rp (cleanPathPart path)) k := by
  by_cases hv : isValidPath (cleanPathPart path) = true
  · simp only [getRouteWithParams, hv, Bool.not_true, Bool.false_eq_true,
      if_false] at h
    rcases hfind : (dedupFirst routePaths).find?
        (fun q => patternMatch q (cleanPathPart path)) with _ | rp'
    · exfalso
      rw [hfind] at h
      rcases fb with _ | f
      · simp at h
      · simp only [] at h
        split at h <;> simp at h
    · rw [hfind] at h
      have h' : rp' = rp ∧ fullParamsOf rp' path = ps := by simpa using h
      rcases h' with ⟨rfl, hps⟩
      subst hps
      have hm : patternMatch rp' (cleanPathPart path) = true := by
        simpa using List.find?_some hfind
      have hhas : objHas (pathParamsOf rp' (cleanPathPart path)) k = true := by
        rw [pathParamsOf]
        refine objHas_foldl_objSet _ _ _ (Or.inr ?_)
        rw [paramPairs_fst rp' _ hm]
        exact hk
      have hfull : fullParamsOf rp' path =
          match queryStringOf path with
          | some qs =>
            mergeQueryParams (pathParamsOf rp' (cleanPathPart path)) rp' qs
          | none => pathParamsOf rp' (cleanPathPart path) := rfl
      rw [hfull]
      rcases hq : queryStringOf path with _ | qs
      · rfl
      · exact mergeQuery_get_of_has qs k (getQueryParamKeys rp') _ hhas
  · exfalso
    have := getRouteWithParams_invalid routePaths fb path
      (by revert hv; rw [isValidPath]; cases hasDoubleSlash (cleanPathPart path) <;> simp)
    rw [this] at h
    cases h

/-- Witness for C5: registering `/user/:id?id&theme` and resolving
`/user/alice?id=ignored&theme=dark` binds `id` to the path-derived
`alice` — the query value `ignored` is never written — while the
non-colliding declared name `theme` gets its query value `dark`. -/
theorem path_params_trump_query_witness :
    getRouteWithParams [str "/", str "/user/:id?id&theme"] none
        (str "/user/alice?id=ignored&theme=dark") =
      .matched (str "/user/:id?id&theme")
        [(str "id", str "alice"), (str "theme", str "dark")] ∧
    objGet [(str "id", str "alice"), (str "theme", str "dark")] (str "id") =
      objGet (pathParamsOf (str "/user/:id?id&theme")
        (cleanPathPart (str "/user/alice?id=ignored&theme=dark"))) (str "id") ∧
    objGet [(str "id", str "alice"), (str "theme", str "dark")] (str "id") =
      some (str "alice") ∧
    objGet [(str "id", str "alice"), (str "theme", str "dark")] (str "theme") =
      some (str "dark") :=
  ⟨by decide,
   path_params_trump_query [str "/", str "/user/:id?id&theme"] none
     (str "/user/alice?id=ignored&theme=dark") (str "/user/:id?id&theme")
     [(str "id", str "alice"), (str "theme", str "dark")] (str "id")
     (by decide) (by decide),
   by decide, by decide⟩

theorem hasChar_eq_true_iff (c : Char) (s : Str) :
    hasChar c s = true ↔ c ∈ s := by
  induction s with
  | nil => simp [hasChar]
  | cons a rest ih =>
    rw [hasChar, Bool.or_eq_true, decide_eq_true_eq, ih, List.mem_cons,
      eq_comm]

theorem splitOnC_eq_single (sep : Char) (s : Str)
    (h : hasChar sep s = false) : splitOnC sep s = [s] := by
  induction s with
  | nil => rfl
  | cons c rest ih =>
    rw [hasChar, Bool.or_eq_false_iff] at h
    rw [splitOnC, if_neg (by simpa using h.1), ih h.2]

theorem cleanPathPart_of_no_query (p : Str) (h : hasChar '?' p = false) :
    cleanPathPart p = p := by
  rw [cleanPathPart, splitOnC_eq_single _ _ h]

theorem queryStringOf_of_no_query (p : Str) (h : hasChar '?' p = false) :
    queryStringOf p = none := by
  rw [queryStringOf, querySuffix, splitOnC_eq_single _ _ h]

theorem splitOnC_append_sep (sep : Char) (d t : Str)
    (hd : hasChar sep d = false) :
    splitOnC sep (d ++ sep :: t) = d :: splitOnC sep t := by
  induction d with
  | nil => rw [List.nil_append, splitOnC, if_pos rfl]
  | cons a d' ih =>
    rw [hasChar, Bool.or_eq_false_iff] at hd
    rw [List.cons_append, splitOnC, if_neg (by simpa using hd.1), ih hd.2]

theorem splitOnC_intercalateC (sep : Char) (ds : List Str) (hne : ds ≠ [])
    (hd : ∀ d ∈ ds, hasChar sep d = false) :
    splitOnC sep (intercalateC sep ds) = ds := by
  induction ds with
  | nil => exact absurd rfl hne
  | cons d ds' ih =>
    cases ds' with
    | nil =>
      rw [intercalateC, splitOnC_eq_single sep d (hd d (by simp))]
    | cons d2 t =>
      rw [intercalateC, splitOnC_append_sep sep d _ (hd d (by simp)),
        ih (by simp) (fun x hx => hd x (by simp [hx]))]

theorem mem_of_mem_splitOnC (sep : Char) (s : Str) :
    ∀ ch ∈ splitOnC sep s, ∀ x ∈ ch, x ∈ s := by
  induction s with
  | nil =>
    intro ch hch x hx
    simp [splitOnC] at hch
    subst hch
    cases hx
  | cons c rest ih =>
    intro ch hch x hx
    rw [splitOnC] at hch
    by_cases hc : c = sep
    · rw [if_pos hc] at hch
      rcases List.mem_cons.mp hch with rfl | hch
      · cases hx
      · exact List.mem_cons_of_mem _ (ih ch hch x hx)
    · rw [if_neg hc] at hch
      rcases hs : splitOnC sep rest with _ | ⟨h0, t⟩
      · exact absurd hs (splitOnC_ne_nil sep rest)
      · rw [hs] at hch
        rcases List.mem_cons.mp hch with rfl | hch
        · rcases List.mem_cons.mp hx with rfl | hx
          · exact List.mem_cons_self _ _
          · exact List.mem_cons_of_mem _
              (ih h0 (by rw [hs]; exact List.mem_cons_self _ _) x hx)
        · exact List.mem_cons_of_mem _
            (ih ch (by rw [hs]; exact List.mem_cons_of_mem _ hch) x hx)

theorem hasChar_splitOnC_chunk (sep : Char) (s : Str) :
    ∀ ch ∈ splitOnC sep s, hasChar sep ch = false := by
  induction s with
  | nil =>
    intro ch hch
    simp [splitOnC] at hch
    subst hch; rfl
  | cons c rest ih =>
    intro ch hch
    rw [splitOnC] at hch
    by_cases hc : c = sep
    · rw [if_pos hc] at hch
      rcases List.mem_cons.mp hch with rfl | hch
      · rfl
      · exact ih ch hch
    · rw [if_neg hc] at hch
      rcases hs : splitOnC sep rest with _ | ⟨h0, t⟩
      · exact absurd hs (splitOnC_ne_nil sep rest)
      · rw [hs] at hch
        rcases List.mem_cons.mp hch with rfl | hch
        · rw [hasChar, Bool.or_eq_false_iff]
          refine ⟨by simpa using hc, ?_⟩
          exact ih h0 (by rw [hs]; exact List.mem_cons_self _ _)
        · exact ih ch (by rw [hs]; exact List.mem_cons_of_mem _ hch)

theorem hasDoubleSlash_of_no_slash (d : Str) (h : hasChar '/' d = false) :
    hasDoubleSlash d = false := by
  induction d with
  | nil => rfl
  | cons a rest ih =>
    rw [hasChar, Bool.or_eq_false_iff] at h
    cases rest with
    | nil => rfl
    | cons b rest' =>
      rw [hasDoubleSlash, Bool.or_eq_false_iff]
      exact ⟨by simp [show a ≠ '/' by simpa using h.1], ih h.2⟩

theorem hasDoubleSlash_append_sep (d r : Str) (hd : hasChar '/' d = false) :
    hasDoubleSlash (d ++ '/' :: r) = (headIsSlash r || hasDoubleSlash r) := by
  induction d with
  | nil =>
    rw [List.nil_append]
    cases r with
    | nil => rfl
    | cons c r' => rw [hasDoubleSlash, headIsSlash]; simp
  | cons a d' ih =>
    rw [hasChar, Bool.or_eq_false_iff] at hd
    rw [List.cons_append]
    have hne : (d' ++ '/' :: r) ≠ [] := by simp
    rcases hx : d' ++ '/' :: r with _ | ⟨b, t⟩
    · exact absurd hx hne
    · rw [hasDoubleSlash, ← hx, ih hd.2]
      have hb : (a = '/' && b = '/') = false := by
        simp [show a ≠ '/' by simpa using hd.1]
      rw [hb, Bool.false_or]

theorem headIsSlash_intercalateC (d : Str) (t : List Str)
    (hd : hasChar '/' d = false) :
    headIsSlash (intercalateC '/' (d :: t)) =
      (d.isEmpty && !t.isEmpty) := by
  cases t with
  | nil =>
    rw [intercalateC]
    cases d with
    | nil => rfl
    | cons a d' =>
      rw [hasChar, Bool.or_eq_false_iff] at hd
      simp [headIsSlash, List.isEmpty, show a ≠ '/' by simpa using hd.1]
  | cons y t' =>
    rw [intercalateC]
    cases d with
    | nil => simp [headIsSlash, List.isEmpty]
    | cons a d' =>
      rw [hasChar, Bool.or_eq_false_iff] at hd
      simp [headIsSlash, List.isEmpty, show a ≠ '/' by simpa using hd.1]

theorem hasDoubleSlash_intercalateC_congr (ds es : List Str)
    (hf : List.Forall₂ (fun d e => (d = []) ↔ (e = [])) ds es)
    (hds : ∀ d ∈ ds, hasChar '/' d = false)
    (hes : ∀ e ∈ es, hasChar '/' e = false) :
    hasDoubleSlash (intercalateC '/' ds) =
      hasDoubleSlash (intercalateC '/' es) := by
  induction hf with
  | nil => rfl
  | cons hde hf' ih =>
    rename_i d e ds' es'
    cases hf' with
    | nil =>
      rw [intercalateC, intercalateC,
        hasDoubleSlash_of_no_slash d (hds d (by simp)),
        hasDoubleSlash_of_no_slash e (hes e (by simp))]
    | cons hde2 hf'' =>
      rename_i d2 e2 ds'' es''
      rw [intercalateC, intercalateC,
        hasDoubleSlash_append_sep d _ (hds d (by simp)),
        hasDoubleSlash_append_sep e _ (hes e (by simp))]
      have hih : hasDoubleSlash (intercalateC '/' (d2 :: ds'')) =
          hasDoubleSlash (intercalateC '/' (e2 :: es'')) :=
        ih (fun x hx => hds x (by simp [hx])) (fun x hx => hes x (by simp [hx]))
      rw [hih, headIsSlash_intercalateC d2 ds'' (hds d2 (by simp)),
        headIsSlash_intercalateC e2 es'' (hes e2 (by simp))]
      have hlen : ds''.length = es''.length := hf''.length_eq
      have he2 : d2.isEmpty = e2.isEmpty := by
        cases d2 <;> cases e2 <;> simp_all [List.isEmpty]
      have hemp : ds''.isEmpty = es''.isEmpty := by
        cases ds'' <;> cases es'' <;> simp_all
      rw [he2, hemp]

theorem hexVal?_hexDigit : ∀ n < 16, hexVal? (hexDigit n) = some n := by
  decide

theorem char_toNat_lt (c : Char) : c.toNat < 0x110000 := by
  rcases c.valid with h | ⟨_, h2⟩
  · exact Nat.lt_trans h (by norm_num)
  · exact h2

theorem char_toNat_not_surrogate (c : Char) :
    ¬(0xD800 ≤ c.toNat ∧ c.toNat ≤ 0xDFFF) := by
  show ¬(0xD800 ≤ c.val.toNat ∧ c.val.toNat ≤ 0xDFFF)
  rcases c.valid with h | ⟨h1, _⟩ <;> omega

theorem utf8Bytes_lt_256 (n : Nat) (hn : n < 0x110000) :
    ∀ b ∈ utf8Bytes n, b < 256 := by
  intro b hb
  rw [utf8Bytes] at hb
  by_cases h1 : n < 0x80
  · rw [if_pos h1] at hb
    simp at hb; omega
  · rw [if_neg h1] at hb
    by_cases h2 : n < 0x800
    · rw [if_pos h2] at hb
      simp at hb
      rcases hb with rfl | rfl <;> omega
    · rw [if_neg h2] at hb
      by_cases h3 : n < 0x10000
      · rw [if_pos h3] at hb
        simp at hb
        rcases hb with rfl | rfl | rfl <;> omega
      · rw [if_neg h3] at hb
        simp at hb
        rcases hb with rfl | rfl | rfl | rfl <;> omega

theorem pctTokens_pctOfBytes (bs : List Nat) (hb : ∀ b ∈ bs, b < 256)
    (s : Str) : pctTokens (pctOfBytes bs ++ s) = byteToks bs ++ pctTokens s := by
  induction bs with
  | nil => rfl
  | cons b bs' ih =>
    have hb0 : b < 256 := hb b (by simp)
    rw [pctOfBytes, List.cons_append, List.cons_append, List.cons_append,
      pctTokens, if_pos rfl]
    rw [hexVal?_hexDigit (b / 16) (by omega), hexVal?_hexDigit (b % 16) (by omega)]
    show PctTok.byte (b / 16 * 16 + b % 16) (hexDigit (b / 16)) (hexDigit (b % 16)) ::
        pctTokens (pctOfBytes bs' ++ s) = byteToks (b :: bs') ++ pctTokens s
    rw [show b / 16 * 16 + b % 16 = b by omega]
    rw [byteToks, List.map_cons, List.cons_append, ← byteToks]
    rw [ih (fun x hx => hb x (by simp [hx]))]

theorem pctTokens_encChar (c : Char) (s : Str) :
    pctTokens (encChar c ++ s) = encToks c ++ pctTokens s := by
  rw [encChar, encToks]
  by_cases hu : isUnreservedEnc c = true
  · have hc : ¬c = '%' := by
      intro hc
      rw [hc] at hu
      exact absurd hu (by decide)
    rw [if_pos hu, if_pos hu, List.singleton_append]
    conv_lhs => rw [pctTokens.eq_def]
    simp [hc]
  · rw [if_neg hu, if_neg hu]
    exact pctTokens_pctOfBytes _ (utf8Bytes_lt_256 c.toNat (char_toNat_lt c)) s

theorem u8Valid_two (n : Nat) : u8Valid 2 n = true := by
  rw [u8Valid, if_pos rfl]

theorem u8Valid_three (n : Nat) (ha : 0x800 ≤ n)
    (hb : ¬(0xD800 ≤ n ∧ n ≤ 0xDFFF)) : u8Valid 3 n = true := by
  rw [u8Valid, if_neg (by decide), if_pos rfl]
  simp only [Bool.and_eq_true, decide_eq_true_eq, Bool.not_eq_true',
    Bool.and_eq_false_iff, decide_eq_false_iff_not]
  omega

theorem u8Valid_four (n : Nat) (ha : 0x10000 ≤ n) (hb : n < 0x110000) :
    u8Valid 4 n = true := by
  rw [u8Valid, if_neg (by decide), if_neg (by decide)]
  simp only [Bool.and_eq_true, decide_eq_true_eq]
  exact ⟨ha, hb⟩

theorem u8Step_final (len acc : Nat) (raw : Str) (b : Nat) (h1 h2 : Char)
    (hc : 0x80 ≤ b ∧ b ≤ 0xBF)
    (hval : u8Valid len (acc * 64 + (b - 0x80)) = true) :
    u8Step (.need 1 len acc raw) (.byte b h1 h2) =
      ([Char.ofNat (acc * 64 + (b - 0x80))], .clean) := by
  rw [u8Step, contByte?, if_pos hc]
  show (if u8Valid len (acc * 64 + (b - 0x80)) = true then
      ([Char.ofNat (acc * 64 + (b - 0x80))], U8St.clean)
    else (raw ++ tokChars (.byte b h1 h2), U8St.clean)) =
    ([Char.ofNat (acc * 64 + (b - 0x80))], U8St.clean)
  rw [if_pos hval]

theorem assemble_one (n : Nat) (h : n < 0x80) (toks : List PctTok) :
    utf8Assemble .clean (byteToks (utf8Bytes n) ++ toks) =
      Char.ofNat n :: utf8Assemble .clean toks := by
  rw [show utf8Bytes n = [n] by rw [utf8Bytes, if_pos h]]
  rw [byteToks, List.map_cons, List.map_nil, List.cons_append,
    List.nil_append, utf8Assemble]
  rw [show u8Step .clean (.byte n (hexDigit (n / 16)) (hexDigit (n % 16))) =
      ([Char.ofNat n], .clean) by rw [u8Step, u8StepClean, if_pos h]]
  rfl

theorem assemble_two (n : Nat) (h1 : 0x80 ≤ n) (h2 : n < 0x800)
    (toks : List PctTok) :
    utf8Assemble .clean (byteToks (utf8Bytes n) ++ toks) =
      Char.ofNat n :: utf8Assemble .clean toks := by
  rw [show utf8Bytes n = [0xC0 + n / 64, 0x80 + n % 64] by
    rw [utf8Bytes, if_neg (by omega), if_pos h2]]
  rw [byteToks, List.map_cons, List.map_cons, List.map_nil,
    List.cons_append, List.cons_append, List.nil_append]
  rw [utf8Assemble]
  rw [show u8Step .clean (.byte (0xC0 + n / 64) (hexDigit ((0xC0 + n / 64) / 16))
        (hexDigit ((0xC0 + n / 64) % 16))) =
      ([], .need 1 2 (0xC0 + n / 64 - 0xC0)
        ['%', hexDigit ((0xC0 + n / 64) / 16), hexDigit ((0xC0 + n / 64) % 16)]) by
    rw [u8Step, u8StepClean, if_neg (by omega), if_pos ⟨by omega, by omega⟩]]
  rw [List.nil_append, utf8Assemble]
  rw [u8Step_final 2 (0xC0 + n / 64 - 0xC0)
    ['%', hexDigit ((0xC0 + n / 64) / 16), hexDigit ((0xC0 + n / 64) % 16)]
    (0x80 + n % 64) (hexDigit ((0x80 + n % 64) / 16))
    (hexDigit ((0x80 + n % 64) % 16)) ⟨by omega, by omega⟩ (u8Valid_two _)]
  rw [show (0xC0 + n / 64 - 0xC0) * 64 + (0x80 + n % 64 - 0x80) = n by omega]
  rfl

theorem assemble_three (n : Nat) (h1 : 0x800 ≤ n) (h2 : n < 0x10000)
    (hs : ¬(0xD800 ≤ n ∧ n ≤ 0xDFFF)) (toks : List PctTok) :
    utf8Assemble .clean (byteToks (utf8Bytes n) ++ toks) =
      Char.ofNat n :: utf8Assemble .clean toks := by
  rw [show utf8Bytes n = [0xE0 + n / 4096, 0x80 + n / 64 % 64, 0x80 + n % 64] by
    rw [utf8Bytes, if_neg (by omega), if_neg (by omega), if_pos h2]]
  rw [byteToks, List.map_cons, List.map_cons, List.map_cons, List.map_nil,
    List.cons_append, List.cons_append, List.cons_append, List.nil_append]
  rw [utf8Assemble]
  rw [show u8Step .clean (.byte (0xE0 + n / 4096)
        (hexDigit ((0xE0 + n / 4096) / 16)) (hexDigit ((0xE0 + n / 4096) % 16))) =
      ([], .need 2 3 (0xE0 + n / 4096 - 0xE0)
        ['%', hexDigit ((0xE0 + n / 4096) / 16), hexDigit ((0xE0 + n / 4096) % 16)]) by
    rw [u8Step, u8StepClean, if_neg (by omega), if_neg (by omega),
      if_pos ⟨by omega, by omega⟩]]
  rw [List.nil_append, utf8Assemble]
  rw [show u8Step (.need 2 3 (0xE0 + n / 4096 - 0xE0)
        ['%', hexDigit ((0xE0 + n / 4096) / 16), hexDigit ((0xE0 + n / 4096) % 16)])
        (.byte (0x80 + n / 64 % 64) (hexDigit ((0x80 + n / 64 % 64) / 16))
          (hexDigit ((0x80 + n / 64 % 64) % 16))) =
      ([], .need 1 3 ((0xE0 + n / 4096 - 0xE0) * 64 + (0x80 + n / 64 % 64 - 0x80))
        (['%', hexDigit ((0xE0 + n / 4096) / 16), hexDigit ((0xE0 + n / 4096) % 16)]
          ++ ['%', hexDigit ((0x80 + n / 64 % 64) / 16),
              hexDigit ((0x80 + n / 64 % 64) % 16)])) by
    rw [u8Step, contByte?, if_pos ⟨by omega, by omega⟩]
    rfl]
  rw [List.nil_append, utf8Assemble]
  rw [u8Step_final 3 ((0xE0 + n / 4096 - 0xE0) * 64 + (0x80 + n / 64 % 64 - 0x80))
    (['%', hexDigit ((0xE0 + n / 4096) / 16), hexDigit ((0xE0 + n / 4096) % 16)]
      ++ ['%', hexDigit ((0x80 + n / 64 % 64) / 16),
          hexDigit ((0x80 + n / 64 % 64) % 16)])
    (0x80 + n % 64) (hexDigit ((0x80 + n % 64) / 16))
    (hexDigit ((0x80 + n % 64) % 16)) ⟨by omega, by omega⟩
    (by
      rw [show ((0xE0 + n / 4096 - 0xE0) * 64 + (0x80 + n / 64 % 64 - 0x80)) * 64 +
          (0x80 + n % 64 - 0x80) = n by omega]
      exact u8Valid_three n (by omega) hs)]
  rw [show ((0xE0 + n / 4096 - 0xE0) * 64 + (0x80 + n / 64 % 64 - 0x80)) * 64 +
      (0x80 + n % 64 - 0x80) = n by omega]
  rfl

theorem assemble_four (n : Nat) (h1 : 0x10000 ≤ n) (h2 : n < 0x110000)
    (toks : List PctTok) :
    utf8Assemble .clean (byteToks (utf8Bytes n) ++ toks) =
      Char.ofNat n :: utf8Assemble .clean toks := by
  rw [show utf8Bytes n =
      [0xF0 + n / 262144, 0x80 + n / 4096 % 64, 0x80 + n / 64 % 64, 0x80 + n % 64] by
    rw [utf8Bytes, if_neg (by omega), if_neg (by omega), if_neg (by omega)]]
  rw [byteToks, List.map_cons, List.map_cons, List.map_cons, List.map_cons,
    List.map_nil, List.cons_append, List.cons_append, List.cons_append,
    List.cons_append, List.nil_append]
  rw [utf8Assemble]
  rw [show u8Step .clean (.byte (0xF0 + n / 262144)
        (hexDigit ((0xF0 + n / 262144) / 16)) (hexDigit ((0xF0 + n / 262144) % 16))) =
      ([], .need 3 4 (0xF0 + n / 262144 - 0xF0)
        ['%', hexDigit ((0xF0 + n / 262144) / 16),
          hexDigit ((0xF0 + n / 262144) % 16)]) by
    rw [u8Step, u8StepClean, if_neg (by omega), if_neg (by omega),
      if_neg (by omega), if_pos ⟨by omega, by omega⟩]]
  rw [List.nil_append, utf8Assemble]
  rw [show u8Step (.need 3 4 (0xF0 + n / 262144 - 0xF0)
        ['%', hexDigit ((0xF0 + n / 262144) / 16), hexDigit ((0xF0 + n / 262144) % 16)])
        (.byte (0x80 + n / 4096 % 64) (hexDigit ((0x80 + n / 4096 % 64) / 16))
          (hexDigit ((0x80 + n / 4096 % 64) % 16))) =
      ([], .need 2 4 ((0xF0 + n / 262144 - 0xF0) * 64 + (0x80 + n / 4096 % 64 - 0x80))
        (['%', hexDigit ((0xF0 + n / 262144) / 16), hexDigit ((0xF0 + n / 262144) % 16)]
          ++ ['%', hexDigit ((0x80 + n / 4096 % 64) / 16),
              hexDigit ((0x80 + n / 4096 % 64) % 16)])) by
    rw [u8Step, contByte?, if_pos ⟨by omega, by omega⟩]
    rfl]
  rw [List.nil_append, utf8Assemble]
  rw [show u8Step (.need 2 4
        ((0xF0 + n / 262144 - 0xF0) * 64 + (0x80 + n / 4096 % 64 - 0x80))
        (['%', hexDigit ((0xF0 + n / 262144) / 16), hexDigit ((0xF0 + n / 262144) % 16)]
          ++ ['%', hexDigit ((0x80 + n / 4096 % 64) / 16),
              hexDigit ((0x80 + n / 4096 % 64) % 16)]))
        (.byte (0x80 + n / 64 % 64) (hexDigit ((0x80 + n / 64 % 64) / 16))
          (hexDigit ((0x80 + n / 64 % 64) % 16))) =
      ([], .need 1 4
        (((0xF0 + n / 262144 - 0xF0) * 64 + (0x80 + n / 4096 % 64 - 0x80)) * 64 +
          (0x80 + n / 64 % 64 - 0x80))
        ((['%', hexDigit ((0xF0 + n / 262144) / 16), hexDigit ((0xF0 + n / 262144) % 16)]
          ++ ['%', hexDigit ((0x80 + n / 4096 % 64) / 16),
              hexDigit ((0x80 + n / 4096 % 64) % 16)])
          ++ ['%', hexDigit ((0x80 + n / 64 % 64) / 16),
              hexDigit ((0x80 + n / 64 % 64) % 16)])) by
    rw [u8Step, contByte?, if_pos ⟨by omega, by omega⟩]
    rfl]
  rw [List.nil_append, utf8Assemble]
  rw [u8Step_final 4
    (((0xF0 + n / 262144 - 0xF0) * 64 + (0x80 + n / 4096 % 64 - 0x80)) * 64 +
      (0x80 + n / 64 % 64 - 0x80))
    ((['%', hexDigit ((0xF0 + n / 262144) / 16), hexDigit ((0xF0 + n / 262144) % 16)]
      ++ ['%', hexDigit ((0x80 + n / 4096 % 64) / 16),
          hexDigit ((0x80 + n / 4096 % 64) % 16)])
      ++ ['%', hexDigit ((0x80 + n / 64 % 64) / 16),
          hexDigit ((0x80 + n / 64 % 64) % 16)])
    (0x80 + n % 64) (hexDigit ((0x80 + n % 64) / 16))
    (hexDigit ((0x80 + n % 64) % 16)) ⟨by omega, by omega⟩
    (by
      rw [show (((0xF0 + n / 262144 - 0xF0) * 64 + (0x80 + n / 4096 % 64 - 0x80)) * 64 +
          (0x80 + n / 64 % 64 - 0x80)) * 64 + (0x80 + n % 64 - 0x80) = n by omega]
      exact u8Valid_four n h1 h2)]
  rw [show (((0xF0 + n / 262144 - 0xF0) * 64 + (0x80 + n / 4096 % 64 - 0x80)) * 64 +
      (0x80 + n / 64 % 64 - 0x80)) * 64 + (0x80 + n % 64 - 0x80) = n by omega]
  rfl

theorem assemble_encToks (c : Char) (toks : List PctTok) :
    utf8Assemble .clean (encToks c ++ toks) =
      c :: utf8Assemble .clean toks := by
  rw [encToks]
  by_cases hu : isUnreservedEnc c = true
  · rw [if_pos hu, List.singleton_append]
    rfl
  · rw [if_neg hu]
    have hlt := char_toNat_lt c
    by_cases h1 : c.toNat < 0x80
    · rw [assemble_one c.toNat h1 toks, Char.ofNat_toNat]
    · by_cases h2 : c.toNat < 0x800
      · rw [assemble_two c.toNat (by omega) h2 toks, Char.ofNat_toNat]
      · by_cases h3 : c.toNat < 0x10000
        · rw [assemble_three c.toNat (by omega) h3
            (char_toNat_not_surrogate c) toks, Char.ofNat_toNat]
        · rw [assemble_four c.toNat (by omega) hlt toks, Char.ofNat_toNat]

theorem dec_enc (v : Str) : dec (enc v) = v := by
  induction v with
  | nil => rfl
  | cons c rest ih =>
    rw [enc, dec, pctTokens_encChar, assemble_encToks]
    rw [dec] at ih
    rw [ih]

theorem hasChar_append (c : Char) (x y : Str) :
    hasChar c (x ++ y) = (hasChar c x || hasChar c y) := by
  induction x with
  | nil => rw [List.nil_append, hasChar, Bool.false_or]
  | cons a x' ih =>
    rw [List.cons_append, hasChar, hasChar, ih, Bool.or_assoc]

theorem hasChar_pctOfBytes (a : Char) (ha1 : a ≠ '%')
    (ha2 : ∀ n, n < 16 → hexDigit n ≠ a) :
    ∀ (bs : List Nat), (∀ b ∈ bs, b < 256) →
      hasChar a (pctOfBytes bs) = false := by
  intro bs
  induction bs with
  | nil => intro _; rfl
  | cons b bs' ih =>
    intro hb
    have hb0 : b < 256 := hb b (by simp)
    rw [pctOfBytes, hasChar, hasChar, hasChar,
      ih (fun x hx => hb x (by simp [hx]))]
    simp [Ne.symm ha1, ha2 (b / 16) (by omega), ha2 (b % 16) (by omega)]

theorem hasChar_enc (a : Char) (haU : isUnreservedEnc a = false)
    (ha1 : a ≠ '%') (ha2 : ∀ n, n < 16 → hexDigit n ≠ a) (v : Str) :
    hasChar a (enc v) = false := by
  induction v with
  | nil => rfl
  | cons c rest ih =>
    rw [enc, hasChar_append, ih, Bool.or_false, encChar]
    by_cases hc : isUnreservedEnc c = true
    · rw [if_pos hc, hasChar, hasChar]
      have hca : c ≠ a := fun h => by rw [h, haU] at hc; cases hc
      simp [hca]
    · rw [if_neg hc]
      exact hasChar_pctOfBytes a ha1 ha2 _
        (utf8Bytes_lt_256 c.toNat (char_toNat_lt c))

theorem enc_no_slash (v : Str) : hasChar '/' (enc v) = false :=
  hasChar_enc '/' (by decide) (by decide) (by decide) v

theorem enc_no_qmark (v : Str) : hasChar '?' (enc v) = false :=
  hasChar_enc '?' (by decide) (by decide) (by decide) v

theorem utf8Bytes_ne_nil (n : Nat) : utf8Bytes n ≠ [] := by
  rw [utf8Bytes]
  split_ifs <;> simp

theorem encChar_ne_nil (c : Char) : encChar c ≠ [] := by
  rw [encChar]
  split_ifs with h
  · simp
  · rcases hx : utf8Bytes c.toNat with _ | ⟨b, bs⟩
    · exact absurd hx (utf8Bytes_ne_nil _)
    · simp [pctOfBytes]

theorem enc_ne_nil (v : Str) (h : v ≠ []) : enc v ≠ [] := by
  cases v with
  | nil => exact absurd rfl h
  | cons c rest =>
    rw [enc]
    intro hx
    exact encChar_ne_nil c (List.append_eq_nil.mp hx).1

theorem isParamChunk_shape (ch : Str) (h : isParamChunk ch = true) :
    ch = ':' :: ch.tail ∧ ch.tail ≠ [] := by
  cases ch with
  | nil => cases h
  | cons c r =>
    rw [isParamChunk, Bool.and_eq_true, decide_eq_true_eq] at h
    constructor
    · rw [h.1, List.tail_cons]
    · intro hx
      rw [List.tail_cons] at hx
      subst hx
      exact absurd h.2 (by decide)

theorem substParams_append_noColon (ps : Obj) (lit s : Str)
    (h : hasChar ':' lit = false) :
    substParams (lit ++ s) ps = lit ++ substParams s ps := by
  induction lit with
  | nil => rw [List.nil_append, List.nil_append]
  | cons a l' ih =>
    rw [hasChar, Bool.or_eq_false_iff] at h
    rw [List.cons_append, substParams, if_neg (by simpa using h.1),
      ih h.2, List.cons_append]

theorem substScan_append_word (ps : Obj) :
    ∀ (name : Str), name.all isWordChar = true →
      ∀ (acc s : Str),
        substScan acc (name ++ s) ps = substScan (acc ++ name) s ps := by
  intro name
  induction name with
  | nil => intro _ acc s; rw [List.nil_append, List.append_nil]
  | cons c n' ih =>
    intro hw acc s
    rw [List.all_cons, Bool.and_eq_true] at hw
    rw [List.cons_append, substScan, if_pos hw.1, ih hw.2 (acc ++ [c]) s,
      List.append_assoc, List.singleton_append]

theorem substParams_single (ps : Obj) (d : Str) (hd : wfChunk d = true) :
    substParams d ps = substChunk ps d := by
  by_cases hp : isParamChunk d = true
  · obtain ⟨hsh, hne⟩ := isParamChunk_shape d hp
    rw [wfChunk, if_pos hp] at hd
    rw [substChunk, if_pos hp]
    conv_lhs => rw [hsh]
    rw [substParams, if_pos rfl]
    have h1 := substScan_append_word ps d.tail hd [] []
    rw [List.append_nil, List.nil_append] at h1
    rw [h1, substScan, if_neg (fun hx => hne (by simpa using hx))]
  · have hd' := hd
    rw [wfChunk, if_neg hp, Bool.and_eq_true] at hd'
    have hcol : hasChar ':' d = false := by simpa using hd'.1
    have h2 := substParams_append_noColon ps d [] hcol
    rw [List.append_nil] at h2
    rw [h2, substChunk, if_neg hp,
      show substParams [] ps = [] from rfl, List.append_nil]

theorem substParams_chunk_step (ps : Obj) (d s : Str) (hd : wfChunk d = true) :
    substParams (d ++ '/' :: s) ps =
      substChunk ps d ++ '/' :: substParams s ps := by
  by_cases hp : isParamChunk d = true
  · obtain ⟨hsh, hne⟩ := isParamChunk_shape d hp
    rw [wfChunk, if_pos hp] at hd
    conv_lhs => rw [hsh]
    rw [List.cons_append, substParams, if_pos rfl,
      substScan_append_word ps d.tail hd [] ('/' :: s), List.nil_append,
      substScan, if_neg (by decide),
      if_neg (fun hx => hne (by simpa using hx)),
      if_neg (by decide), substChunk, if_pos hp]
  · have hd' := hd
    rw [wfChunk, if_neg hp, Bool.and_eq_true] at hd'
    have hcol : hasChar ':' d = false := by simpa using hd'.1
    rw [substParams_append_noColon ps d ('/' :: s) hcol, substParams,
      if_neg (by decide), substChunk, if_neg hp]

theorem substParams_intercalateC (ps : Obj) :
    ∀ (chs : List Str), (∀ ch ∈ chs, wfChunk ch = true) →
      substParams (intercalateC '/' chs) ps =
        intercalateC '/' (chs.map (substChunk ps)) := by
  intro chs
  induction chs with
  | nil => intro _; rfl
  | cons d t ih =>
    intro hwf
    have hd := hwf d (by simp)
    cases t with
    | nil =>
      rw [intercalateC, List.map_cons, List.map_nil, intercalateC]
      exact substParams_single ps d hd
    | cons d2 t' =>
      have hr : intercalateC '/' ((d :: d2 :: t').map (substChunk ps)) =
          substChunk ps d ++
            '/' :: intercalateC '/' ((d2 :: t').map (substChunk ps)) := by
        rw [List.map_cons, List.map_cons, intercalateC, ← List.map_cons]
      rw [intercalateC, substParams_chunk_step ps d _ hd,
        ih (fun x hx => hwf x (by simp [hx])), hr]

theorem chunkMatches_substChunk (ps : Obj) (d : Str)
    (hne : isParamChunk d = true → enc ((objGet ps d.tail).getD []) ≠ []) :
    chunkMatches d (substChunk ps d) = true := by
  by_cases hp : isParamChunk d = true
  · rw [chunkMatches, if_pos hp, substChunk, if_pos hp]
    simpa using hne hp
  · rw [chunkMatches, if_neg hp, substChunk, if_neg hp]
    simp

theorem coreMatch_map_substChunk (ps : Obj) :
    ∀ (chs : List Str),
      (∀ ch ∈ chs, isParamChunk ch = true →
        enc ((objGet ps ch.tail).getD []) ≠ []) →
      coreMatch chs (chs.map (substChunk ps)) = true := by
  intro chs
  induction chs with
  | nil => intro _; rfl
  | cons d t ih =>
    intro h
    rw [List.map_cons, coreMatch, Bool.and_eq_true]
    exact ⟨chunkMatches_substChunk ps d (h d (by simp)),
      ih (fun x hx => h x (by simp [hx]))⟩

theorem zip_map_filterMap_subst (ps : Obj) :
    ∀ (chs : List Str),
      (chs.zip (chs.map (substChunk ps))).filterMap
        (fun pr =>
          if isParamChunk pr.1 then some (pr.1.tail, dec pr.2) else none) =
      chs.filterMap (fun ch =>
        if isParamChunk ch then some (ch.tail, (objGet ps ch.tail).getD [])
        else none) := by
  intro chs
  induction chs with
  | nil => rfl
  | cons d t ih =>
    rw [List.map_cons, List.zip_cons_cons]
    by_cases hp : isParamChunk d = true <;>
      simp [List.filterMap_cons, hp, substChunk, dec_enc, ih]

theorem filterMap_keys_pairs (ps : Obj) :
    ∀ (chs : List Str),
      chs.filterMap (fun ch =>
        if isParamChunk ch then some (ch.tail, (objGet ps ch.tail).getD [])
        else none) =
      (chs.filterMap
          (fun ch => if isParamChunk ch then some ch.tail else none)).map
        (fun k => (k, (objGet ps k).getD [])) := by
  intro chs
  induction chs with
  | nil => rfl
  | cons d t ih =>
    by_cases hp : isParamChunk d = true <;>
      simp [List.filterMap_cons, hp, ih]

theorem objGet_cons_self (pr : Str × Str) (o : Obj) :
    objGet (pr :: o) pr.1 = some pr.2 := by
  rw [objGet, List.find?_cons_of_pos _ (by simp)]
  rfl

theorem objGet_cons_ne (pr : Str × Str) (o : Obj) (k : Str) (h : k ≠ pr.1) :
    objGet (pr :: o) k = objGet o k := by
  rw [objGet, objGet, List.find?_cons_of_neg _ (by simpa using Ne.symm h)]

theorem map_objGet_self :
    ∀ (ps : Obj), (ps.map Prod.fst).Nodup →
      (ps.map Prod.fst).map (fun k => (k, (objGet ps k).getD [])) = ps := by
  intro ps
  induction ps with
  | nil => intro _; rfl
  | cons pr ps' ih =>
    intro hnd
    rw [List.map_cons, List.nodup_cons] at hnd
    rw [List.map_cons, List.map_cons]
    congr 1
    · show (pr.1, (objGet (pr :: ps') pr.1).getD []) = pr
      rw [objGet_cons_self]
      rfl
    · rw [List.map_congr_left (fun k hk => by
        rw [objGet_cons_ne pr ps' k (fun he => hnd.1 (he ▸ hk))])]
      exact ih hnd.2

theorem foldl_objSet_fresh :
    ∀ (l : Obj) (acc : Obj),
      (∀ pr ∈ l, ∀ q ∈ acc, q.1 ≠ pr.1) → (l.map Prod.fst).Nodup →
      l.foldl (fun o pr => objSet o pr.1 pr.2) acc = acc ++ l := by
  intro l
  induction l with
  | nil => intro acc _ _; rw [List.foldl_nil, List.append_nil]
  | cons pr l' ih =>
    intro acc hfr hnd
    rw [List.map_cons, List.nodup_cons] at hnd
    rw [List.foldl_cons]
    have hno : objHas acc pr.1 = false := by
      rw [objHas, List.find?_eq_none.mpr
        (fun q hq => by simpa using hfr pr (by simp) q hq)]
      rfl
    have hset : objSet acc pr.1 pr.2 = acc ++ [pr] := by
      rw [objSet, if_neg (by simp [hno])]
    have hfresh' : ∀ qr ∈ l', ∀ q ∈ acc ++ [pr], q.1 ≠ qr.1 := by
      intro qr hqr q hq
      rcases List.mem_append.mp hq with hq | hq
      · exact hfr qr (by simp [hqr]) q hq
      · rcases List.mem_singleton.mp hq with rfl
        intro he
        exact hnd.1 (by rw [he]; exact List.mem_map_of_mem Prod.fst hqr)
    rw [hset, ih (acc ++ [pr]) hfresh' hnd.2, List.append_assoc,
      List.singleton_append]

theorem objGet_mem_keys (ps : Obj) (k : Str) (hk : k ∈ ps.map Prod.fst) :
    ∃ v, objGet ps k = some v ∧ (k, v) ∈ ps := by
  induction ps with
  | nil => cases hk
  | cons pr ps' ih =>
    by_cases he : k = pr.1
    · subst he
      exact ⟨pr.2, objGet_cons_self pr ps', by simp⟩
    · rw [List.map_cons] at hk
      rcases List.mem_cons.mp hk with h1 | h1
      · exact absurd h1 he
      · rcases ih h1 with ⟨v, hv1, hv2⟩
        exact ⟨v, by rw [objGet_cons_ne pr ps' k he, hv1],
          List.mem_cons_of_mem _ hv2⟩

theorem forall₂_map_self (R : Str → Str → Prop) (f : Str → Str) :
    ∀ (l : List Str), (∀ a ∈ l, R a (f a)) → List.Forall₂ R l (l.map f) := by
  intro l
  induction l with
  | nil => intro _; exact List.Forall₂.nil
  | cons a t ih =>
    intro h
    exact List.Forall₂.cons (h a (by simp))
      (ih (fun x hx => h x (by simp [hx])))

theorem hasChar_intercalateC (sep a : Char) (hsep : sep ≠ a) :
    ∀ (l : List Str), (∀ e ∈ l, hasChar a e = false) →
      hasChar a (intercalateC sep l) = false := by
  intro l
  induction l with
  | nil => intro _; rfl
  | cons d t ih =>
    intro h
    cases t with
    | nil => rw [intercalateC]; exact h d (by simp)
    | cons d2 t' =>
      rw [intercalateC, hasChar_append, h d (by simp), hasChar,
        ih (fun x hx => h x (by simp [hx]))]
      simp [hsep]

/-- Counterexample to C6 as stated: the pattern `/user/:id` and a params
object supplying a value for its one parameter — the empty string.
`computePath` substitutes the empty value (`params[key] || ''`), producing
the concrete path `/user/`, whose trailing empty segment no longer matches
the parameter (the capture group `([^/]+)` requires a nonempty token), so
resolution misses entirely instead of returning the params: the round trip
breaks for empty parameter values. -/
theorem roundtrip_empty_value_counterexample :
    computePath (str "/user/:id") (some [(str "id", str "")]) =
      str "/user/" ∧
    getRouteWithParams [str "/user/:id"] none
        (computePath (str "/user/:id") (some [(str "id", str "")])) =
      .notFound (str "/user/") none := by
  constructor <;> decide

/-- **C6** (amended): round trip for path-parameter-only patterns.  For a
well-formed route pattern with no query declaration and no `//`, and a
params object binding exactly the pattern's parameter names (no
duplicates) to nonempty values, resolving the path computed by
`computePath` yields the same route with exactly the given params object:
percent-encoding in `computePath` and percent-decoding in resolution
round-trip every character, including spaces, `+`, `&`, `#`, `@`, `.` and
the regex metacharacters, none of which act as pattern syntax. -/
theorem roundtrip_path_params (p : Str) (ps : Obj)
    (hq : hasChar '?' p = false)
    (hv : isValidPath p = true)
    (hwf : wfPattern p = true)
    (hnd : (ps.map Prod.fst).Nodup)
    (hkeys : ps.map Prod.fst = pathParamKeys p)
    (hne : ∀ pr ∈ ps, pr.2 ≠ ([] : Str)) :
    getRouteWithParams [p] none (computePath p (some ps)) =
      .matched p ps := by
  have hclean : cleanPathPart p = p := cleanPathPart_of_no_query p hq
  have hchq : patternChunks p = splitOnC '/' p := by
    rw [patternChunks, hclean]
  have hwf' : ∀ ch ∈ splitOnC '/' p, wfChunk ch = true := by
    rw [wfPattern, hchq, List.all_eq_true] at hwf
    intro ch hch
    exact hwf ch hch
  have hget : ∀ ch ∈ splitOnC '/' p, isParamChunk ch = true →
      ∃ v, objGet ps ch.tail = some v ∧ v ≠ [] := by
    intro ch hch hp
    have hkmem : ch.tail ∈ pathParamKeys p := by
      rw [pathParamKeys, hchq]
      exact List.mem_filterMap.mpr ⟨ch, hch, by rw [if_pos hp]⟩
    rcases objGet_mem_keys ps ch.tail (by rw [hkeys]; exact hkmem) with
      ⟨v, hv1, hv2⟩
    exact ⟨v, hv1, hne (ch.tail, v) hv2⟩
  have hencne : ∀ ch ∈ splitOnC '/' p, isParamChunk ch = true →
      enc ((objGet ps ch.tail).getD []) ≠ [] := by
    intro ch hch hp
    rcases hget ch hch hp with ⟨v, hv1, hv2⟩
    rw [hv1]
    exact enc_ne_nil v hv2
  have hcomp : computePath p (some ps) =
      intercalateC '/' ((splitOnC '/' p).map (substChunk ps)) := by
    have hsp := substParams_intercalateC ps (splitOnC '/' p) hwf'
    rw [intercalateC_splitOnC] at hsp
    simp only [computePath, hclean, queryStringOf_of_no_query p hq]
    exact hsp
  have hes_noslash : ∀ e ∈ (splitOnC '/' p).map (substChunk ps),
      hasChar '/' e = false := by
    intro e he
    rcases List.mem_map.mp he with ⟨d, hd, rfl⟩
    by_cases hp : isParamChunk d = true
    · rw [substChunk, if_pos hp]
      exact enc_no_slash _
    · rw [substChunk, if_neg hp]
      exact hasChar_splitOnC_chunk '/' p d hd
  have hes_noq : ∀ e ∈ (splitOnC '/' p).map (substChunk ps),
      hasChar '?' e = false := by
    intro e he
    rcases List.mem_map.mp he with ⟨d, hd, rfl⟩
    by_cases hp : isParamChunk d = true
    · rw [substChunk, if_pos hp]
      exact enc_no_qmark _
    · rw [substChunk, if_neg hp]
      cases hc : hasChar '?' d with
      | false => rfl
      | true =>
        rw [hasChar_eq_true_iff] at hc
        have hmem : '?' ∈ p := mem_of_mem_splitOnC '/' p d hd '?' hc
        rw [← hasChar_eq_true_iff] at hmem
        exact absurd hmem (by simp [hq])
  have hq2 : hasChar '?'
      (intercalateC '/' ((splitOnC '/' p).map (substChunk ps))) = false :=
    hasChar_intercalateC '/' '?' (by decide) _ hes_noq
  have hnonempty : (splitOnC '/' p).map (substChunk ps) ≠ [] := by
    intro hx
    exact splitOnC_ne_nil '/' p (List.map_eq_nil_iff.mp hx)
  have hsplit : splitOnC '/'
      (intercalateC '/' ((splitOnC '/' p).map (substChunk ps))) =
      (splitOnC '/' p).map (substChunk ps) :=
    splitOnC_intercalateC '/' _ hnonempty hes_noslash
  have hR : ∀ d ∈ splitOnC '/' p, ((d = []) ↔ (substChunk ps d = [])) := by
    intro d hd
    by_cases hp : isParamChunk d = true
    · constructor
      · intro hx
        rw [hx] at hp
        cases hp
      · intro hx
        rw [substChunk, if_pos hp] at hx
        exact absurd hx (by
          rcases hget d hd hp with ⟨v, hv1, hv2⟩
          rw [hv1]
          exact enc_ne_nil v hv2)
    · rw [substChunk, if_neg hp]
  have hvC : isValidPath
      (intercalateC '/' ((splitOnC '/' p).map (substChunk ps))) = true := by
    rw [isValidPath]
    have hcongr := hasDoubleSlash_intercalateC_congr (splitOnC '/' p)
      ((splitOnC '/' p).map (substChunk ps))
      (forall₂_map_self _ _ _ hR) (hasChar_splitOnC_chunk '/' p) hes_noslash
    rw [intercalateC_splitOnC] at hcongr
    rw [← hcongr]
    exact hv
  have hcore : coreMatch (splitOnC '/' p)
      ((splitOnC '/' p).map (substChunk ps)) = true :=
    coreMatch_map_substChunk ps (splitOnC '/' p) hencne
  have hmatch : patternMatch p
      (intercalateC '/' ((splitOnC '/' p).map (substChunk ps))) = true := by
    rw [patternMatch, hchq, hsplit, hcore, Bool.true_or]
  have hcleanC : cleanPathPart
      (intercalateC '/' ((splitOnC '/' p).map (substChunk ps))) =
      intercalateC '/' ((splitOnC '/' p).map (substChunk ps)) :=
    cleanPathPart_of_no_query _ hq2
  have hmc : matchedChunks p
      (intercalateC '/' ((splitOnC '/' p).map (substChunk ps))) =
      (splitOnC '/' p).map (substChunk ps) := by
    rw [matchedChunks, hchq, hsplit, if_pos hcore]
  have hfull : fullParamsOf p
      (intercalateC '/' ((splitOnC '/' p).map (substChunk ps))) = ps := by
    rw [fullParamsOf, queryStringOf_of_no_query _ hq2]
    show pathParamsOf p (cleanPathPart
      (intercalateC '/' ((splitOnC '/' p).map (substChunk ps)))) = ps
    rw [hcleanC, pathParamsOf, paramPairs, hmc, hchq,
      zip_map_filterMap_subst ps (splitOnC '/' p),
      filterMap_keys_pairs ps (splitOnC '/' p)]
    have hpk : (splitOnC '/' p).filterMap
        (fun ch => if isParamChunk ch then some ch.tail else none) =
        ps.map Prod.fst := by
      rw [hkeys, pathParamKeys, hchq]
    rw [hpk, map_objGet_self ps hnd,
      foldl_objSet_fresh ps []
        (fun pr _ q hq => absurd hq (List.not_mem_nil q)) hnd,
      List.nil_append]
  have hfind : List.find?
      (fun rp => patternMatch rp
        (intercalateC '/' ((splitOnC '/' p).map (substChunk ps)))) [p] =
      some p :=
    List.find?_cons_of_pos _ hmatch
  rw [hcomp]
  simp only [getRouteWithParams, hcleanC, hvC, Bool.not_true,
    Bool.false_eq_true, if_false, dedupFirst_find?, hfind, hfull]

/-- Witness for C6: the pattern `/files/:name/:tag` with parameter values
exercising spaces, `+`, `&`, `#`, `@`, `.` and the regex metacharacters
round-trips exactly. -/
theorem roundtrip_path_params_witness :
    (hasChar '?' (str "/files/:name/:tag") = false ∧
      isValidPath (str "/files/:name/:tag") = true ∧
      wfPattern (str "/files/:name/:tag") = true) ∧
    getRouteWithParams [str "/files/:name/:tag"] none
        (computePath (str "/files/:name/:tag")
          (some [(str "name", str "a b+c&d#e@f.g"),
                 (str "tag", str ".*[]()|")])) =
      .matched (str "/files/:name/:tag")
        [(str "name", str "a b+c&d#e@f.g"), (str "tag", str ".*[]()|")] :=
  ⟨⟨by decide, by decide, by decide⟩,
    roundtrip_path_params _ _ (by decide) (by decide) (by decide)
      (by decide) (by decide) (by decide)⟩

/-- Counterexample to C7 as stated: with routes `/x` and `/404`, fallback
`/404`, the call `navigateAny("/nope?a//b")` has a fully-substituted
concrete path that fails validation (the query part holds `//`) and is
rejected with `InvalidPathError` — but the miss handler has already been
invoked with the clean path, because the source resolves (clean-path
validation, matcher scan, miss callback, fallback lookup) before it
validates the full target string inside the promise executor.  The claim
says a validation failure never invokes the miss handler. -/
theorem nav_error_propagation_counterexample :
    navStep ⟨[str "/x", str "/404"], some (str "/404"), true⟩
        (initEng (str "/x")) 1 (str "/nope?a//b") none =
      (.error (.invalidPath (str "/nope?a//b")), [.miss (str "/nope")]) := by
  decide

/-- C7 as amended: a `navigate`/`navigateAny` call surfaces every failure
as the error of its result, never swallowed and with the engine unchanged:
(a) a target whose clean portion (before `?`) fails validation is rejected
with `InvalidPathError` with no event at all — no miss, no fallback;
(b) a target with a valid clean portion matching no registered pattern and
with no usable fallback is rejected with `RouteNotFoundError`, the miss
callback having fired once with the clean path;
(c) a target that resolves (match or fallback) but whose full substituted
string fails validation is rejected with `InvalidPathError`, after the
events of the resolution (the fallback case has already fired the miss
callback — the deviation of the counterexample). -/
theorem nav_error_propagation (cfg : Cfg) (e : Eng) (id : Nat) (path : Str)
    (ps? : Option Obj) :
    (isValidPath (cleanPathPart (navSubst cfg.routePaths path ps?)) = false →
      navStep cfg e id path ps? =
        (.error (.invalidPath
          (cleanPathPart (navSubst cfg.routePaths path ps?))), [])) ∧
    (isValidPath (cleanPathPart (navSubst cfg.routePaths path ps?)) = true →
      (∀ rp ∈ cfg.routePaths,
        patternMatch rp (cleanPathPart (navSubst cfg.routePaths path ps?)) =
          false) →
      usableFallback cfg.routePaths cfg.fallbackPath = false →
      navStep cfg e id path ps? =
        (.error (.notFound (cleanPathPart (navSubst cfg.routePaths path ps?))
          (fbShown cfg.fallbackPath)),
         [.miss (cleanPathPart (navSubst cfg.routePaths path ps?))])) ∧
    (resolveOk (getRouteWithParams cfg.routePaths cfg.fallbackPath
        (navSubst cfg.routePaths path ps?)) = true →
      isValidPath (navSubst cfg.routePaths path ps?) = false →
      navStep cfg e id path ps? =
        (.error (.invalidPath (navSubst cfg.routePaths path ps?)),
         resolveEvents (getRouteWithParams cfg.routePaths cfg.fallbackPath
           (navSubst cfg.routePaths path ps?)))) := by
  refine ⟨fun hbad => ?_, fun hv hnm hfb => ?_, fun hok hbad => ?_⟩
  · have h1 : getRouteWithParams cfg.routePaths cfg.fallbackPath
        (navSubst cfg.routePaths path ps?) =
        .invalid (cleanPathPart (navSubst cfg.routePaths path ps?)) := by
      refine getRouteWithParams_invalid _ _ _ ?_
      revert hbad; rw [isValidPath]
      cases hasDoubleSlash (cleanPathPart (navSubst cfg.routePaths path ps?)) <;>
        simp
    simp only [navStep, h1]
  · have h1 := getRouteWithParams_notFound cfg.routePaths cfg.fallbackPath
      (navSubst cfg.routePaths path ps?) hv hnm hfb
    simp only [navStep, h1]
  · rcases hout : getRouteWithParams cfg.routePaths cfg.fallbackPath
        (navSubst cfg.routePaths path ps?) with p' | ⟨rp, ps⟩ | ⟨cl, fb⟩ | ⟨cl, f⟩
    · rw [hout] at hok; simp [resolveOk] at hok
    · simp only [navStep, hout, hbad, Bool.not_false, if_pos, resolveEvents]
    · simp only [navStep, hout, hbad, Bool.not_false, if_pos, resolveEvents]
    · rw [hout] at hok; simp [resolveOk] at hok

/-- Witness for C7 (amended): concrete rejections for each of the three
failure shapes — invalid clean path, no match without usable fallback, and
resolution followed by full-string validation failure. -/
theorem nav_error_propagation_witness :
    navStep ⟨[str "/x", str "/404"], some (str "/404"), true⟩
        (initEng (str "/x")) 3 (str "/a//b") none =
      (.error (.invalidPath (str "/a//b")), []) ∧
    navStep ⟨[str "/x"], none, true⟩ (initEng (str "/x")) 4 (str "/nope") none =
      (.error (.notFound (str "/nope") none), [.miss (str "/nope")]) ∧
    navStep ⟨[str "/x"], none, true⟩ (initEng (str "/x")) 5
        (str "/x?a//b") none =
      (.error (.invalidPath (str "/x?a//b")), []) :=
  ⟨(nav_error_propagation _ _ 3 _ none).1 (by decide),
   (nav_error_propagation _ _ 4 _ none).2.1 (by decide) (by decide) (by decide),
   ((nav_error_propagation _ _ 5 _ none).2.2 (by decide) (by decide)).trans
     (by decide)⟩

/-- Counterexample to C9 as stated: in the default (hash) mode with
fallback `/404` and a miss handler, the single call `navigateAny("/nope")`
invokes the miss callback twice, not once — once in the synchronous
resolution inside `navigate` and once more when the queued hashchange
notification re-resolves the location in `handleUrlChange`. -/
theorem fallback_miss_once_counterexample :
    missEvents (runScenario ⟨[str "/", str "/404"], some (str "/404"), false⟩
        [] [.nav 1 (str "/nope"), .deliver]).evs =
      [.miss (str "/nope"), .miss (str "/nope")] := by
  decide

/-- C9 as amended: in history mode, with a usable fallback registered and
no other navigation in flight, a `navigateAny` call on a valid concrete
path matching no registered pattern fires the miss callback exactly once
with the clean path; the queued deferred activation then resolves the
navigation successfully with a state whose route is the fallback pattern
and whose params map is empty (in the default hash mode the miss callback
fires a second time when the hashchange notification is handled — see the
counterexample). -/
theorem fallback_miss_once_history (cfg : Cfg) (e : Eng) (id : Nat)
    (path fb : Str) (hhist : cfg.history = true)
    (hfb : cfg.fallbackPath = some fb) (hfbne : fb ≠ [])
    (hmem : fb ∈ cfg.routePaths) (hdef : e.deferred = [])
    (hv : isValidPath path = true)
    (hnm : ∀ rp ∈ cfg.routePaths, patternMatch rp (cleanPathPart path) = false) :
    navStep cfg e id path none =
      (.ok { e with loc := path, deferred := [⟨path, fb, [], id⟩] },
       [.miss (cleanPathPart path)]) ∧
    runDeferred { e with loc := path, deferred := [⟨path, fb, [], id⟩] } =
      ({ e with loc := path, act := (activateRoute e.act path fb []).1, deferred := [] },
       (activateRoute e.act path fb []).2,
       [(id, (activateRoute e.act path fb []).1)]) ∧
    (activateRoute e.act path fb []).1.route = some fb ∧
    (activateRoute e.act path fb []).1.params = [] ∧
    missEvents (activateRoute e.act path fb []).2 = [] := by
  have h1 : getRouteWithParams cfg.routePaths cfg.fallbackPath path =
      .fallback (cleanPathPart path) fb := by
    rw [hfb]
    exact getRouteWithParams_usable_fallback cfg.routePaths fb path
      (isValidPath_clean path hv) hnm hfbne hmem
  refine ⟨?_, ?_, (activateRoute_empty_params e.act path fb).1,
    (activateRoute_empty_params e.act path fb).2.1,
    (activateRoute_empty_params e.act path fb).2.2⟩
  · simp only [navStep, navSubst, h1, hv, Bool.not_true, Bool.false_eq_true,
      if_false, hhist, if_true, hdef, List.nil_append]
  · rw [runDeferred]

/-- Witness for C9 (amended): the concrete history-mode run — routes `/`
and `/404`, fallback `/404`, `navigateAny("/nope")` — fires one miss with
`/nope`, and the deferred activation resolves promise 1 with the fallback
route and empty params. -/
theorem fallback_miss_once_history_witness :
    navStep ⟨[str "/", str "/404"], some (str "/404"), true⟩
        ⟨⟨some (str "/"), some (str "/"), []⟩, [], [], str "/", 0⟩ 1
        (str "/nope") none =
      (.ok ⟨⟨some (str "/"), some (str "/"), []⟩, [],
        [⟨str "/nope", str "/404", [], 1⟩], str "/nope", 0⟩,
       [.miss (str "/nope")]) ∧
    (activateRoute (⟨some (str "/"), some (str "/"), []⟩ : Act) (str "/nope")
        (str "/404") []).1.route = some (str "/404") ∧
    (activateRoute (⟨some (str "/"), some (str "/"), []⟩ : Act) (str "/nope")
        (str "/404") []).1.params = ([] : Obj) :=
  ⟨(fallback_miss_once_history _ _ 1 _ (str "/404") rfl rfl (by decide)
      (by decide) rfl (by decide) (by decide)).1,
   (fallback_miss_once_history ⟨[str "/", str "/404"], some (str "/404"), true⟩
      ⟨⟨some (str "/"), some (str "/"), []⟩, [], [], str "/", 0⟩ 1
      (str "/nope") (str "/404") rfl rfl (by decide) (by decide) rfl
      (by decide) (by decide)).2.2.1,
   (fallback_miss_once_history ⟨[str "/", str "/404"], some (str "/404"), true⟩
      ⟨⟨some (str "/"), some (str "/"), []⟩, [], [], str "/", 0⟩ 1
      (str "/nope") (str "/404") rfl rfl (by decide) (by decide) rfl
      (by decide) (by decide)).2.2.2.1⟩

end TypeRouter
